import Mathlib

/-!
Verification model of the Tomahawk query-resolution pipeline
(`src/libtomahawk/pipeline.cpp`).

The pipeline state is modelled as a record of association lists and
queues, mirroring the `Pipeline` members (`m_resolvers`, `m_qids`,
`m_rids`, `m_queries_pending`, `m_queries_temporary`, `m_qidsState`,
`m_qidsTimeout`, `m_running`, `m_maxConcurrentQueries`, the temporary
query timer).  Each C++ member function is translated into a state
transformer.  Deferred invocations (`FuncTimeout`) are modelled as a
task queue inside the state; an event relation runs external entry
points and pops deferred tasks in an arbitrary order, which
over-approximates the real scheduler.

Query objects are shared mutable objects in C++ (`query_ptr`); they are
modelled by a heap keyed by the query id, together with the modelling
assumption (which matches the GUID-based id generation) that distinct
query objects have distinct ids, so that pointer equality coincides
with id equality.
-/

namespace Tomahawk

/-- Membership test for a list of naturals (models `QList::contains`). -/
def memN (x : Nat) : List Nat → Bool
  | [] => false
  | y :: ys => if y = x then true else memN x ys

/-- Insert into a set represented as a list, keeping the first
occurrence (models `QMap::insert` of a key with a unit-like value). -/
def setInsert (x : Nat) (s : List Nat) : List Nat :=
  if memN x s then s else s ++ [x]

/-- Key membership in an association list (models `QMap::contains`). -/
def mapContains {α : Type} (k : Nat) : List (Nat × α) → Bool
  | [] => false
  | p :: ps => if p.1 = k then true else mapContains k ps

/-- Lookup in an association list (models `QMap::value`). -/
def mapLookup {α : Type} (k : Nat) : List (Nat × α) → Option α
  | [] => none
  | p :: ps => if p.1 = k then some p.2 else mapLookup k ps

/-- Insert-or-replace in an association list (models `QMap::insert`). -/
def mapInsert {α : Type} (k : Nat) (v : α) (m : List (Nat × α)) : List (Nat × α) :=
  if mapContains k m then m.map (fun p => if p.1 = k then (k, v) else p)
  else m ++ [(k, v)]

/-- Remove a key from an association list (models `QMap::remove`). -/
def mapRemove {α : Type} (k : Nat) (m : List (Nat × α)) : List (Nat × α) :=
  m.filter (fun p => p.1 ≠ k)

/-- Update the value stored at one key of an association list in place
(models mutation through a shared pointer held in `m_qids`). -/
def heapUpdate {α : Type} (k : Nat) (f : α → α) (m : List (Nat × α)) : List (Nat × α) :=
  m.map (fun p => if p.1 = k then (p.1, f p.2) else p)

/-- Insert an element at a given position of a queue
(models `QList::insert(i, q)`). -/
def insertAt (i : Nat) (x : Nat) : List Nat → List Nat
  | [] => [x]
  | y :: ys =>
    match i with
    | 0 => x :: y :: ys
    | j + 1 => y :: insertAt j x ys

/-- Resolver capability: immutable name surrogate `rid`, priority
`weight` and per-attempt `timeout` (see the `Resolver` interface
consumed by `pipeline.cpp`). -/
structure Resolver where
  rid : Nat
  weight : Nat
  timeout : Nat
deriving DecidableEq, Repr

/-- Modelled from the spec: the externally implemented `Query` object
contract (`query.cpp` is not part of the shown sources).  It holds an
ordered result collection, the set of resolvers already attempted
(`resolvedBy`), the currently assigned resolver, the monotone
`resolvingFinished` flag set by the `onResolvingFinished` callback, and
the derived predicates `playable` (satisfied) and `isFullTextQuery`
(exhaustive search). -/
structure Query where
  qid : Nat
  results : List Nat
  resolvedBy : List Nat
  currentResolver : Option Nat
  resolvingFinished : Bool
  playable : Bool
  isFullTextQuery : Bool
deriving DecidableEq, Repr

/-- Modelled from the spec: a deferred zero-delay or timeout callback
(`FuncTimeout`), posted by the dispatcher and run later by the event
loop. -/
inductive Task where
  | shuntT (qid : Nat)
  | shuntNextT
  | timeoutT (qid : Nat)
deriving DecidableEq, Repr

/-- Pipeline runtime state: one field per mutable `Pipeline` member,
plus the query heap, the deferred-task queue and observation counters
(`idleEmits` counts emissions of the `idle` signal, `timerStarts`
counts restarts of the temporary-query timer). -/
structure PState where
  running : Bool
  maxConcurrentQueries : Nat
  resolvers : List Resolver
  heap : List (Nat × Query)
  qids : List Nat
  rids : List Nat
  pending : List Nat
  temporary : List Nat
  qidsState : List (Nat × Int)
  qidsTimeout : List Nat
  timerActive : Bool
  timerStarts : Nat
  idleEmits : Nat
  tasks : List Task
deriving DecidableEq, Repr

/-- `Pipeline::setQIDState`: clear the timeout flag, then either store a
positive attempt budget and defer a `shunt`, or finalize the query
(drop the budget entry, fire `onResolvingFinished`, evict
non-temporary queries from the ledger) and defer a `shuntNext`. -/
def setQIDState (qid : Nat) (st : Int) (s : PState) : PState :=
  let s0 := { s with qidsTimeout := s.qidsTimeout.filter (fun x => x ≠ qid) }
  if 0 < st then
    { s0 with qidsState := mapInsert qid st s0.qidsState,
              tasks := s0.tasks ++ [Task.shuntT qid] }
  else
    { s0 with qidsState := mapRemove qid s0.qidsState,
              heap := heapUpdate qid (fun q => { q with resolvingFinished := true }) s0.heap,
              qids := if memN qid s0.temporary then s0.qids
                      else s0.qids.filter (fun x => x ≠ qid),
              tasks := s0.tasks ++ [Task.shuntNextT] }

/-- `Pipeline::decQIDState`: decrement the attempt budget if the query
still holds one, else do nothing. -/
def decQIDState (qid : Nat) (s : PState) : PState :=
  if mapContains qid s.qidsState then
    setQIDState qid ((mapLookup qid s.qidsState).getD 0 - 1) s
  else s

/-- `Pipeline::incQIDState` (present in the source, not invoked by any
shown entry point): set the budget to its successor, or to 1 when
absent. -/
def incQIDState (qid : Nat) (s : PState) : Int × PState :=
  let st : Int :=
    if mapContains qid s.qidsState then (mapLookup qid s.qidsState).getD 0 + 1 else 1
  (st, { s with qidsState := mapInsert qid st s.qidsState })

/-- `Pipeline::nextResolver`: scan the registry in registration order,
skip resolvers already attempted by the query, keep the first candidate
and replace it only on strictly greater weight. -/
def nextResolver (resolvedBy : List Nat) (rs : List Resolver) : Option Resolver :=
  rs.foldl
    (fun acc r =>
      if memN r.rid resolvedBy then acc
      else
        match acc with
        | none => some r
        | some cur => if cur.weight < r.weight then some r else acc)
    none

/-- `Pipeline::shuntNext`: the dispatch pass.  When not running, do
nothing.  When nothing is pending, emit `idle` exactly if no budget
slot is occupied.  Otherwise, under the concurrency cap, pop the front
pending query, clear its current resolver and seed its budget with the
current registry size. -/
def shuntNext (s : PState) : PState :=
  if s.running then
    let rc : Int := (s.resolvers.length : Int)
    match s.pending with
    | [] =>
      if s.qidsState.isEmpty then { s with idleEmits := s.idleEmits + 1 } else s
    | qid :: rest =>
      if s.maxConcurrentQueries ≤ s.qidsState.length then s
      else
        let s1 := { s with pending := rest,
                           heap := heapUpdate qid (fun q => { q with currentResolver := none }) s.heap }
        setQIDState qid rc s1
  else s

/-- `Pipeline::shunt`: attempt one resolver for the query.  When a best
untried resolver exists and the query is not finished, assign it (also
recording it in `resolvedBy`, modelled from the spec's attempted-set
contract), set the timeout flag, arm the resolver timeout when
positive, and run another dispatch pass.  Otherwise finalize with
budget 0. -/
def shunt (qid : Nat) (s : PState) : PState :=
  if s.running then
    match mapLookup qid s.heap with
    | none => s
    | some q =>
      match (if q.resolvingFinished then none else nextResolver q.resolvedBy s.resolvers) with
      | some r =>
        let assign : Query → Query := fun qu =>
          { qu with currentResolver := some r.rid, resolvedBy := setInsert r.rid qu.resolvedBy }
        let s1 := { s with heap := heapUpdate qid assign s.heap }
        let s2 := { s1 with qidsTimeout := setInsert qid s1.qidsTimeout }
        let s3 := if 0 < r.timeout then { s2 with tasks := s2.tasks ++ [Task.timeoutT qid] } else s2
        shuntNext s3
      | none => setQIDState qid 0 s
  else s

/-- `Pipeline::timeoutShunt`: on timeout, treat the attempt as failed
(decrement the budget) only if the query is still awaiting an answer. -/
def timeoutShunt (qid : Nat) (s : PState) : PState :=
  if s.running then
    if memN qid s.qidsTimeout then decQIDState qid s else s
  else s

/-- `Pipeline::reportResults`: drop the report when not running or when
the id is unknown to the ledger.  Otherwise append the results, index
them by result id, finalize with budget 0 on early success
(non-empty results, satisfied, not an exhaustive search), else
decrement the budget.  The `pl` argument is the value of the derived
`playable` predicate after the new results are appended. -/
def reportResults (qid : Nat) (results : List Nat) (pl : Bool) (s : PState) : PState :=
  if s.running then
    if memN qid s.qids then
      match mapLookup qid s.heap with
      | none => s
      | some q =>
        if results.isEmpty then decQIDState qid s
        else
          let q2 : Query := { q with results := q.results ++ results, playable := pl }
          let s2 := { s with heap := heapUpdate qid (fun _ => q2) s.heap,
                             rids := q2.results.foldl (fun acc r => setInsert r acc) s.rids }
          if q2.playable && !q2.isFullTextQuery then setQIDState qid 0 s2
          else decQIDState qid s2
    else s
  else s

/-- Ledger registration step of the `Pipeline::resolve` loop body:
`if (!m_qids.contains(q->id())) m_qids.insert(q->id(), q)`.  Under the
distinct-ids modelling assumption the inserted pointer is the heap
object when the id was seen before, else the submitted query. -/
def resolveLedger (q : Query) (s : PState) : PState :=
  if memN q.qid s.qids then s
  else { s with qids := s.qids ++ [q.qid],
                heap := mapInsert q.qid ((mapLookup q.qid s.heap).getD q) s.heap }

/-- Pending-queue insertion step of the `Pipeline::resolve` loop body:
`m_queries_pending.insert(i++, q)` when prioritized, else
`m_queries_pending << q`. -/
def resolvePend (prio : Bool) (i : Nat) (qid : Nat) (s : PState) : PState :=
  if prio then { s with pending := insertAt i qid s.pending }
  else { s with pending := s.pending ++ [qid] }

/-- Temporary-query step of the `Pipeline::resolve` loop body: record
the query in `m_queries_temporary` and restart the reaper timer (stop
if active, then start). -/
def resolveTemp (temp : Bool) (qid : Nat) (s : PState) : PState :=
  if temp then { s with temporary := s.temporary ++ [qid],
                        timerActive := true,
                        timerStarts := s.timerStarts + 1 }
  else s

/-- The locked insertion loop of `Pipeline::resolve` (batch form): for
each query, register unknown ids in the ledger, skip queries already
pending (`continue`), insert the rest at the running front index
(prioritized) or at the back, and for temporary submissions record the
query and restart the reaper timer. -/
def resolveLoop : List Query → Bool → Bool → Nat → PState → PState
  | [], _, _, _, s => s
  | q :: rest, prio, temp, i, s =>
    let s1 := resolveLedger q s
    if memN q.qid s1.pending then resolveLoop rest prio temp i s1
    else
      resolveLoop rest prio temp (if prio then i + 1 else i)
        (resolveTemp temp q.qid (resolvePend prio i q.qid s1))

/-- The mutex-guarded block of `Pipeline::resolve`. -/
def resolveInsert (qlist : List Query) (prio temp : Bool) (s : PState) : PState :=
  resolveLoop qlist prio temp 0 s

/-- `Pipeline::resolve` (batch form): the locked insertion loop
followed by a dispatch pass. -/
def pipelineResolve (qlist : List Query) (prio temp : Bool) (s : PState) : PState :=
  shuntNext (resolveInsert qlist prio temp s)

/-- `Pipeline::onTemporaryQueryTimer`: stop the timer, evict every
temporary query from the ledger and clear the temporary list. -/
def onTemporaryQueryTimer (s : PState) : PState :=
  { s with timerActive := false,
           qids := s.qids.filter (fun x => !(memN x s.temporary)),
           temporary := [] }

/-- `Pipeline::addResolver`: append to the registry (no duplicate
check). -/
def addResolver (r : Resolver) (s : PState) : PState :=
  { s with resolvers := s.resolvers ++ [r] }

/-- `Pipeline::removeResolver`: `QList::removeAll`, dropping every
occurrence of the capability. -/
def removeResolver (rid : Nat) (s : PState) : PState :=
  { s with resolvers := s.resolvers.filter (fun r => r.rid ≠ rid) }

/-- `Pipeline::start`: set running and run a dispatch pass. -/
def pipelineStart (s : PState) : PState :=
  shuntNext { s with running := true }

/-- `Pipeline::stop`: clear running. -/
def pipelineStop (s : PState) : PState :=
  { s with running := false }

/-- Run one deferred task. -/
def runTask (t : Task) (s : PState) : PState :=
  match t with
  | Task.shuntT qid => shunt qid s
  | Task.shuntNextT => shuntNext s
  | Task.timeoutT qid => timeoutShunt qid s

/-- External and internal events driving the pipeline: the public entry
points of `Pipeline`, the reaper timer, and the event loop running one
deferred task (picked at an arbitrary position, over-approximating the
real timer delays). -/
inductive Event where
  | startE
  | stopE
  | addResolverE (r : Resolver)
  | removeResolverE (rid : Nat)
  | resolveE (qlist : List Query) (prio temp : Bool)
  | reportResultsE (qid : Nat) (results : List Nat) (pl : Bool)
  | runTaskE (i : Nat)
  | reaperFireE
deriving Repr

/-- One step of the pipeline system. -/
def step (s : PState) (e : Event) : PState :=
  match e with
  | Event.startE => pipelineStart s
  | Event.stopE => pipelineStop s
  | Event.addResolverE r => addResolver r s
  | Event.removeResolverE rid => removeResolver rid s
  | Event.resolveE qlist prio temp => pipelineResolve qlist prio temp s
  | Event.reportResultsE qid results pl => reportResults qid results pl s
  | Event.runTaskE i =>
    match s.tasks[i]? with
    | some t => runTask t { s with tasks := s.tasks.eraseIdx i }
    | none => s
  | Event.reaperFireE => if s.timerActive then onTemporaryQueryTimer s else s

/-- Initial pipeline state: the constructor computes
`qBound(DEFAULT_CONCURRENT_QUERIES, QThread::idealThreadCount(),
MAX_CONCURRENT_QUERIES)` and starts with everything empty and not
running. -/
def initState (ideal : Int) : PState :=
  { running := false,
    maxConcurrentQueries := (max 4 (min ideal 16)).toNat,
    resolvers := [], heap := [], qids := [], rids := [],
    pending := [], temporary := [],
    qidsState := [], qidsTimeout := [],
    timerActive := false, timerStarts := 0, idleEmits := 0, tasks := [] }

/-- Reachable pipeline states. -/
inductive Reachable (ideal : Int) : PState → Prop where
  | init : Reachable ideal (initState ideal)
  | next : ∀ {s : PState} (e : Event), Reachable ideal s → Reachable ideal (step s e)

/-- Specification-side description of which ids a submission batch
actually inserts into the pending queue: ids already pending (or
repeated earlier in the batch) are skipped, the rest appear in batch
order. -/
def newlyInserted : List Query → List Nat → List Nat
  | [], _ => []
  | q :: rest, pend =>
    if memN q.qid pend then newlyInserted rest pend
    else q.qid :: newlyInserted rest (q.qid :: pend)

/-- First element of maximal weight in `c :: rs`, scanning left to
right and replacing only on strictly greater weight (the accumulator
discipline of `Pipeline::nextResolver`). -/
def firstMax (c : Resolver) : List Resolver → Resolver
  | [] => c
  | r :: rs => if c.weight < r.weight then firstMax r rs else firstMax c rs

/-- Accumulator step of the selection scan, without the attempted-set
filter: keep the current best, replace only on strictly greater
weight. -/
def pickStep (acc : Option Resolver) (r : Resolver) : Option Resolver :=
  match acc with
  | none => some r
  | some cur => if cur.weight < r.weight then some r else acc

/-- Inductive invariant of reachable pipeline states: the budget map
respects the concurrency cap; a set timeout flag implies an occupied
budget slot; a deferred `shunt` for an unfinished query implies an
occupied budget slot; and the pending queue, the ledger and the
deferred tasks only mention queries present in the heap. -/
structure Inv (s : PState) : Prop where
  budget : s.qidsState.length ≤ s.maxConcurrentQueries
  flagState : ∀ qid : Nat, memN qid s.qidsTimeout = true → mapContains qid s.qidsState = true
  taskState : ∀ (qid : Nat) (q : Query), Task.shuntT qid ∈ s.tasks →
    mapLookup qid s.heap = some q → q.resolvingFinished = false →
    mapContains qid s.qidsState = true
  pendingHeap : ∀ qid : Nat, memN qid s.pending = true → mapContains qid s.heap = true
  ledgerHeap : ∀ qid : Nat, memN qid s.qids = true → mapContains qid s.heap = true
  taskHeap : ∀ qid : Nat, (Task.shuntT qid ∈ s.tasks ∨ Task.timeoutT qid ∈ s.tasks) →
    mapContains qid s.heap = true

theorem memN_iff {x : Nat} {l : List Nat} : memN x l = true ↔ x ∈ l := by
  induction l with
  | nil => simp [memN]
  | cons y ys ih =>
    by_cases h : y = x
    · subst h; simp [memN]
    · simp [memN, h, ih, Ne.symm h]

theorem memN_append {x : Nat} {l1 l2 : List Nat} :
    memN x (l1 ++ l2) = (memN x l1 || memN x l2) := by
  induction l1 with
  | nil => simp [memN]
  | cons y ys ih =>
    by_cases h : y = x <;> simp [memN, h, ih]

theorem memN_filter_ne_self {x : Nat} {l : List Nat} :
    memN x (l.filter (fun y => y ≠ x)) = false := by
  induction l with
  | nil => simp [memN]
  | cons y ys ih =>
    by_cases h : y = x
    · subst h; simpa [List.filter_cons, memN, ne_eq, decide_not] using ih
    · rw [List.filter_cons, if_pos (by simpa using h)]
      simpa [memN, h, ne_eq, decide_not] using ih

theorem memN_filter_ne_of_ne {x k : Nat} {l : List Nat} (h : x ≠ k) :
    memN x (l.filter (fun y => y ≠ k)) = memN x l := by
  induction l with
  | nil => simp [memN]
  | cons y ys ih =>
    by_cases hy : y = k
    · subst hy
      rw [List.filter_cons, if_neg (by simp)]
      simpa [memN, Ne.symm h, ne_eq, decide_not] using ih
    · rw [List.filter_cons, if_pos (by simpa using hy)]
      by_cases hx : y = x <;>
        simpa [memN, hy, hx, ne_eq, decide_not] using ih

theorem memN_setInsert_self {x : Nat} {l : List Nat} :
    memN x (setInsert x l) = true := by
  unfold setInsert
  by_cases h : memN x l = true
  · simp [h]
  · simp only [h]
    simp [memN_append, memN, Bool.or_comm]

theorem memN_setInsert_of {x k : Nat} {l : List Nat} (h : memN x l = true) :
    memN x (setInsert k l) = true := by
  unfold setInsert
  by_cases hk : memN k l = true <;> simp [hk, memN_append, h]

theorem memN_setInsert_ne {x k : Nat} {l : List Nat} (h : x ≠ k) :
    memN x (setInsert k l) = memN x l := by
  unfold setInsert
  by_cases hk : memN k l = true
  · simp [hk]
  · simp [hk, memN_append, memN, h, Ne.symm h]

theorem mapContains_lookup_isSome {α : Type} {k : Nat} {m : List (Nat × α)} :
    mapContains k m = (mapLookup k m).isSome := by
  induction m with
  | nil => simp [mapContains, mapLookup]
  | cons p ps ih =>
    by_cases h : p.1 = k <;> simp [mapContains, mapLookup, h, ih]

theorem mapContains_append {α : Type} {a : Nat} {m1 m2 : List (Nat × α)} :
    mapContains a (m1 ++ m2) = (mapContains a m1 || mapContains a m2) := by
  induction m1 with
  | nil => simp [mapContains]
  | cons p ps ih =>
    by_cases h : p.1 = a <;> simp [mapContains, h, ih]

theorem mapContains_map_keyfix {α : Type} {a : Nat} {m : List (Nat × α)}
    {f : Nat × α → Nat × α} (hf : ∀ p, (f p).1 = p.1) :
    mapContains a (m.map f) = mapContains a m := by
  induction m with
  | nil => simp [mapContains]
  | cons p ps ih =>
    by_cases h : p.1 = a <;> simp [mapContains, hf p, h, ih]

theorem mapContains_insert_self {α : Type} {k : Nat} {v : α} {m : List (Nat × α)} :
    mapContains k (mapInsert k v m) = true := by
  unfold mapInsert
  by_cases h : mapContains k m = true
  · rw [if_pos h, mapContains_map_keyfix]
    · exact h
    · intro p; by_cases hp : p.1 = k <;> simp [hp]
  · simp [h, mapContains_append, mapContains]

theorem mapContains_insert_of {α : Type} {a k : Nat} {v : α} {m : List (Nat × α)}
    (h : mapContains a m = true) : mapContains a (mapInsert k v m) = true := by
  unfold mapInsert
  by_cases hk : mapContains k m = true
  · rw [if_pos hk, mapContains_map_keyfix]
    · exact h
    · intro p; by_cases hp : p.1 = k <;> simp [hp]
  · simp [hk, mapContains_append, h]

theorem mapContains_insert_ne {α : Type} {a k : Nat} {v : α} {m : List (Nat × α)}
    (h : a ≠ k) : mapContains a (mapInsert k v m) = mapContains a m := by
  unfold mapInsert
  by_cases hk : mapContains k m = true
  · rw [if_pos hk, mapContains_map_keyfix]
    intro p; by_cases hp : p.1 = k <;> simp [hp]
  · simp [hk, mapContains_append, mapContains, Ne.symm h]

theorem mapLookup_append {α : Type} {a : Nat} {m1 m2 : List (Nat × α)} :
    mapLookup a (m1 ++ m2) =
      (match mapLookup a m1 with
       | some v => some v
       | none => mapLookup a m2) := by
  induction m1 with
  | nil => simp [mapLookup]
  | cons p ps ih =>
    by_cases h : p.1 = a <;> simp [mapLookup, h, ih]

theorem mapLookup_eq_none_of_not_contains {α : Type} {a : Nat} {m : List (Nat × α)}
    (h : mapContains a m = false) : mapLookup a m = none := by
  induction m with
  | nil => simp [mapLookup]
  | cons p ps ih =>
    by_cases hp : p.1 = a
    · simp [mapContains, hp] at h
    · simp only [mapContains, hp, if_false] at h
      simp [mapLookup, hp, ih h]

theorem mapLookup_map_replace_ne {α : Type} {a k : Nat} {v : α} {m : List (Nat × α)}
    (h : a ≠ k) :
    mapLookup a (m.map (fun p => if p.1 = k then (k, v) else p)) = mapLookup a m := by
  induction m with
  | nil => simp [mapLookup]
  | cons p ps ih =>
    by_cases hp : p.1 = k
    · have hpa : p.1 ≠ a := by rw [hp]; exact Ne.symm h
      simp [mapLookup, hp, Ne.symm h, hpa, ih]
    · by_cases hpa : p.1 = a <;> simp [mapLookup, hp, hpa, h, ih]

theorem mapLookup_insert_self {α : Type} {k : Nat} {v : α} {m : List (Nat × α)} :
    mapLookup k (mapInsert k v m) = some v := by
  unfold mapInsert
  by_cases h : mapContains k m = true
  · rw [if_pos h]
    induction m with
    | nil => simp [mapContains] at h
    | cons p ps ih =>
      by_cases hp : p.1 = k
      · simp [mapLookup, hp]
      · simp only [mapContains, hp, if_false] at h
        simp [mapLookup, hp, ih h]
  · rw [if_neg h, mapLookup_append,
        mapLookup_eq_none_of_not_contains (by simpa using h)]
    simp [mapLookup]

theorem mapLookup_insert_ne {α : Type} {a k : Nat} {v : α} {m : List (Nat × α)}
    (h : a ≠ k) : mapLookup a (mapInsert k v m) = mapLookup a m := by
  unfold mapInsert
  by_cases hk : mapContains k m = true
  · rw [if_pos hk, mapLookup_map_replace_ne h]
  · rw [if_neg hk, mapLookup_append]
    cases hl : mapLookup a m with
    | some v => simp
    | none => simp [mapLookup, Ne.symm h]

theorem length_mapInsert_of_contains {α : Type} {k : Nat} {v : α} {m : List (Nat × α)}
    (h : mapContains k m = true) : (mapInsert k v m).length = m.length := by
  simp [mapInsert, h]

theorem length_mapInsert_le {α : Type} {k : Nat} {v : α} {m : List (Nat × α)} :
    (mapInsert k v m).length ≤ m.length + 1 := by
  unfold mapInsert
  by_cases h : mapContains k m = true <;> simp [h]

theorem mapContains_remove_self {α : Type} {k : Nat} {m : List (Nat × α)} :
    mapContains k (mapRemove k m) = false := by
  induction m with
  | nil => simp [mapRemove, mapContains]
  | cons p ps ih =>
    by_cases hp : p.1 = k
    · simpa [mapRemove, hp] using ih
    · simpa [mapRemove, mapContains, hp] using ih

theorem mapContains_remove_ne {α : Type} {a k : Nat} {m : List (Nat × α)}
    (h : a ≠ k) : mapContains a (mapRemove k m) = mapContains a m := by
  induction m with
  | nil => simp [mapRemove, mapContains]
  | cons p ps ih =>
    unfold mapRemove at ih ⊢
    by_cases hp : p.1 = k
    · rw [List.filter_cons, if_neg (by simp [hp])]
      rw [ih]
      have hpa : p.1 ≠ a := by rw [hp]; exact Ne.symm h
      simp [mapContains, hpa]
    · rw [List.filter_cons, if_pos (by simpa using hp)]
      have ih2 : mapContains a (List.filter (fun p => !decide (p.1 = k)) ps) = mapContains a ps := by
        simpa [ne_eq, decide_not] using ih
      by_cases hpa : p.1 = a <;> simp [mapContains, hpa, ih2]

theorem length_mapRemove_le {α : Type} {k : Nat} {m : List (Nat × α)} :
    (mapRemove k m).length ≤ m.length := by
  simpa [mapRemove] using List.length_filter_le _ m

theorem mapContains_heapUpdate {α : Type} {a k : Nat} {f : α → α} {m : List (Nat × α)} :
    mapContains a (heapUpdate k f m) = mapContains a m := by
  unfold heapUpdate
  rw [mapContains_map_keyfix]
  intro p; by_cases hp : p.1 = k <;> simp [hp]

theorem mapLookup_heapUpdate_self {α : Type} {k : Nat} {f : α → α} {m : List (Nat × α)} :
    mapLookup k (heapUpdate k f m) = (mapLookup k m).map f := by
  induction m with
  | nil => simp [heapUpdate, mapLookup]
  | cons p ps ih =>
    by_cases hp : p.1 = k
    · simp [heapUpdate, mapLookup, hp]
    · simpa [heapUpdate, mapLookup, hp] using ih

theorem mapLookup_heapUpdate_ne {α : Type} {a k : Nat} {f : α → α} {m : List (Nat × α)}
    (h : a ≠ k) : mapLookup a (heapUpdate k f m) = mapLookup a m := by
  induction m with
  | nil => simp [heapUpdate, mapLookup]
  | cons p ps ih =>
    by_cases hp : p.1 = k
    · simpa [heapUpdate, mapLookup, hp, Ne.symm h] using ih
    · by_cases hpa : p.1 = a <;> simpa [heapUpdate, mapLookup, hp, hpa, h] using ih

theorem length_heapUpdate {α : Type} {k : Nat} {f : α → α} {m : List (Nat × α)} :
    (heapUpdate k f m).length = m.length := by
  simp [heapUpdate]

theorem nextResolver_eq_filter (rb : List Nat) (rs : List Resolver) :
    nextResolver rb rs = (rs.filter (fun r => !(memN r.rid rb))).foldl pickStep none := by
  suffices h : ∀ (l : List Resolver) (acc : Option Resolver),
      l.foldl
        (fun acc r =>
          if memN r.rid rb then acc
          else
            match acc with
            | none => some r
            | some cur => if cur.weight < r.weight then some r else acc)
        acc = (l.filter (fun r => !(memN r.rid rb))).foldl pickStep acc by
    exact h rs none
  intro l
  induction l with
  | nil => intro acc; rfl
  | cons r l ih =>
    intro acc
    by_cases h : memN r.rid rb = true
    · rw [List.foldl_cons, if_pos h, List.filter_cons, if_neg (by simp [h]), ih]
    · rw [List.foldl_cons, if_neg h, List.filter_cons,
          if_pos (by simpa using h), List.foldl_cons]
      exact ih (pickStep acc r)

theorem foldl_pickStep_some (xs : List Resolver) :
    ∀ c : Resolver, xs.foldl pickStep (some c) = some (firstMax c xs) := by
  induction xs with
  | nil => intro c; rfl
  | cons r rs ih =>
    intro c
    by_cases h : c.weight < r.weight <;> simp [pickStep, firstMax, h, ih]

theorem weight_le_firstMax (xs : List Resolver) :
    ∀ c : Resolver, c.weight ≤ (firstMax c xs).weight := by
  induction xs with
  | nil => intro c; exact Nat.le_refl _
  | cons r rs ih =>
    intro c
    by_cases h : c.weight < r.weight
    · rw [firstMax, if_pos h]
      exact Nat.le_trans (Nat.le_of_lt h) (ih r)
    · rw [firstMax, if_neg h]
      exact ih c

theorem firstMax_decomp (xs : List Resolver) :
    ∀ c : Resolver, ∃ pre post : List Resolver,
      c :: xs = pre ++ (firstMax c xs) :: post ∧
      (∀ p ∈ pre, p.weight < (firstMax c xs).weight) ∧
      (∀ q ∈ post, q.weight ≤ (firstMax c xs).weight) := by
  induction xs with
  | nil =>
    intro c
    exact ⟨[], [], by rw [firstMax]; rfl, by simp, by simp⟩
  | cons r rs ih =>
    intro c
    by_cases h : c.weight < r.weight
    · obtain ⟨pre, post, heq, hpre, hpost⟩ := ih r
      rw [firstMax, if_pos h]
      refine ⟨c :: pre, post, ?_, ?_, hpost⟩
      · rw [List.cons_append, ← heq]
      · intro p hp
        rcases List.mem_cons.mp hp with hp | hp
        · subst hp
          exact Nat.lt_of_lt_of_le h (weight_le_firstMax rs r)
        · exact hpre p hp
    · obtain ⟨pre, post, heq, hpre, hpost⟩ := ih c
      rw [firstMax, if_neg h]
      cases pre with
      | nil =>
        have hc : c = firstMax c rs := by
          have := congrArg (fun l => l.head?) heq
          simpa using this
        have hrs : rs = post := by
          have := congrArg (fun l => l.tail) heq
          simpa using this
        refine ⟨[], r :: post, ?_, by simp, ?_⟩
        · rw [List.nil_append, ← hc, ← hrs]
        · intro q hq
          rcases List.mem_cons.mp hq with hq | hq
          · subst hq
            rw [← hc]
            exact Nat.le_of_not_lt h
          · exact hpost q hq
      | cons c1 pre1 =>
        have hc1 : c = c1 := by
          have := congrArg (fun l => l.head?) heq
          simpa using this
        have hrs : rs = pre1 ++ firstMax c rs :: post := by
          have := congrArg (fun l => l.tail) heq
          simpa using this
        have hcw : c.weight < (firstMax c rs).weight := by
          have := hpre c1 (List.mem_cons_self c1 pre1)
          rw [← hc1] at this
          exact this
        refine ⟨c :: r :: pre1, post, ?_, ?_, hpost⟩
        · rw [List.cons_append, List.cons_append, ← hrs]
        · intro p hp
          rcases List.mem_cons.mp hp with hp | hp
          · subst hp; exact hcw
          · rcases List.mem_cons.mp hp with hp | hp
            · subst hp
              exact Nat.lt_of_le_of_lt (Nat.le_of_not_lt h) hcw
            · exact hpre p (List.mem_cons_of_mem c1 hp)

/-- C1: resolver selection picks, among registered resolvers not yet
attempted by the request, the strictly heaviest one, with the
earliest-registered winning exact weight ties (single scan in
registration order, replacement only on strictly greater weight); it
selects none exactly when the registry is empty or every registered
resolver was already attempted. -/
theorem nextResolver_selection (rb : List Nat) (rs : List Resolver) :
    (nextResolver rb rs = none ↔ (rs = [] ∨ ∀ r ∈ rs, memN r.rid rb = true)) ∧
    (∀ r : Resolver, nextResolver rb rs = some r →
      ∃ pre post : List Resolver,
        rs.filter (fun x => !(memN x.rid rb)) = pre ++ r :: post ∧
        (∀ p ∈ pre, p.weight < r.weight) ∧
        (∀ q ∈ post, q.weight ≤ r.weight)) := by
  have hf := nextResolver_eq_filter rb rs
  constructor
  · rw [hf]
    cases hc : rs.filter (fun r => !(memN r.rid rb)) with
    | nil =>
      simp only [List.foldl_nil]
      constructor
      · intro _
        right
        intro r hr
        have := List.filter_eq_nil_iff.mp hc r hr
        simpa using this
      · intro _; trivial
    | cons x xs =>
      rw [List.foldl_cons, show pickStep none x = some x from rfl, foldl_pickStep_some]
      constructor
      · intro h; exact absurd h (by simp)
      · intro h
        exfalso
        have hx : x ∈ rs.filter (fun r => !(memN r.rid rb)) := by
          rw [hc]; exact List.mem_cons_self x xs
        have hxr : x ∈ rs := (List.mem_filter.mp hx).1
        have hxf := (List.mem_filter.mp hx).2
        rcases h with h | h
        · rw [h] at hxr; exact absurd hxr (List.not_mem_nil x)
        · have hm := h x hxr
          simp [hm] at hxf
  · intro r hr
    rw [hf] at hr
    cases hc : rs.filter (fun x => !(memN x.rid rb)) with
    | nil =>
      rw [hc] at hr
      exact absurd hr (by simp)
    | cons x xs =>
      rw [hc, List.foldl_cons, show pickStep none x = some x from rfl,
          foldl_pickStep_some] at hr
      have hrx : r = firstMax x xs := by
        injection hr with h
        exact h.symm
      obtain ⟨pre, post, heq, hpre, hpost⟩ := firstMax_decomp xs x
      subst hrx
      exact ⟨pre, post, heq, hpre, hpost⟩

theorem memN_cons_eq {y x : Nat} {l : List Nat} :
    memN y (x :: l) = (decide (x = y) || memN y l) := by
  by_cases h : x = y <;> simp [memN, h]

theorem memN_append_cons_comm {y x : Nat} {front back : List Nat} :
    memN y (front ++ x :: back) = memN y (x :: (front ++ back)) := by
  by_cases h : x = y <;> simp [memN_append, memN_cons_eq, h]

theorem memN_insertAt_self {x : Nat} {l : List Nat} : ∀ i : Nat, memN x (insertAt i x l) = true := by
  induction l with
  | nil => intro i; simp [insertAt, memN]
  | cons y ys ih =>
    intro i
    cases i with
    | zero => simp [insertAt, memN]
    | succ j =>
      by_cases h : y = x <;> simp [insertAt, memN, h, ih j]

theorem insertAt_length_append (x : Nat) :
    ∀ (front back : List Nat), insertAt front.length x (front ++ back) = front ++ x :: back := by
  intro front
  induction front with
  | nil =>
    intro back
    cases back <;> rfl
  | cons f fs ih =>
    intro back
    simp [insertAt, ih back]

theorem newlyInserted_congr : ∀ (qlist : List Query) (p1 p2 : List Nat),
    (∀ x : Nat, memN x p1 = memN x p2) → newlyInserted qlist p1 = newlyInserted qlist p2 := by
  intro qlist
  induction qlist with
  | nil => intro p1 p2 _; rfl
  | cons q rest ih =>
    intro p1 p2 h
    simp only [newlyInserted, h q.qid]
    by_cases hm : memN q.qid p2 = true
    · simp [hm]
      exact ih p1 p2 h
    · have hx : memN q.qid p2 = false := by simpa using hm
      have h2 : ∀ x : Nat, memN x (q.qid :: p1) = memN x (q.qid :: p2) := by
        intro x; simp [memN_cons_eq, h x]
      simp only [hx, Bool.false_eq_true, if_false]
      rw [ih (q.qid :: p1) (q.qid :: p2) h2]

theorem resolveLedger_pending {q : Query} {s : PState} :
    (resolveLedger q s).pending = s.pending := by
  unfold resolveLedger
  by_cases h : memN q.qid s.qids = true <;> simp [h]

theorem resolveLedger_temporary {q : Query} {s : PState} :
    (resolveLedger q s).temporary = s.temporary := by
  unfold resolveLedger
  by_cases h : memN q.qid s.qids = true <;> simp [h]

theorem resolveLedger_timerStarts {q : Query} {s : PState} :
    (resolveLedger q s).timerStarts = s.timerStarts := by
  unfold resolveLedger
  by_cases h : memN q.qid s.qids = true <;> simp [h]

theorem resolveLedger_timerActive {q : Query} {s : PState} :
    (resolveLedger q s).timerActive = s.timerActive := by
  unfold resolveLedger
  by_cases h : memN q.qid s.qids = true <;> simp [h]

theorem resolvePend_temporary {prio : Bool} {i qid : Nat} {s : PState} :
    (resolvePend prio i qid s).temporary = s.temporary := by
  unfold resolvePend
  cases prio <;> simp

theorem resolvePend_timerStarts {prio : Bool} {i qid : Nat} {s : PState} :
    (resolvePend prio i qid s).timerStarts = s.timerStarts := by
  unfold resolvePend
  cases prio <;> simp

theorem resolvePend_timerActive {prio : Bool} {i qid : Nat} {s : PState} :
    (resolvePend prio i qid s).timerActive = s.timerActive := by
  unfold resolvePend
  cases prio <;> simp

theorem resolvePend_pending_prio {i qid : Nat} {s : PState} :
    (resolvePend true i qid s).pending = insertAt i qid s.pending := by
  simp [resolvePend]

theorem resolvePend_pending_nonprio {i qid : Nat} {s : PState} :
    (resolvePend false i qid s).pending = s.pending ++ [qid] := by
  simp [resolvePend]

theorem resolveTemp_pending {temp : Bool} {qid : Nat} {s : PState} :
    (resolveTemp temp qid s).pending = s.pending := by
  unfold resolveTemp
  cases temp <;> simp

theorem resolveTemp_temporary {temp : Bool} {qid : Nat} {s : PState} :
    (resolveTemp temp qid s).temporary = s.temporary ++ (if temp then [qid] else []) := by
  unfold resolveTemp
  cases temp <;> simp

theorem resolveTemp_timerStarts {temp : Bool} {qid : Nat} {s : PState} :
    (resolveTemp temp qid s).timerStarts = s.timerStarts + (if temp then 1 else 0) := by
  unfold resolveTemp
  cases temp <;> simp

theorem resolveTemp_timerActive {temp : Bool} {qid : Nat} {s : PState} :
    (resolveTemp temp qid s).timerActive = (s.timerActive || temp) := by
  unfold resolveTemp
  cases temp <;> simp

theorem resolveLoop_prio (temp : Bool) : ∀ (qlist : List Query) (front back : List Nat) (s : PState),
    s.pending = front ++ back →
    (resolveLoop qlist true temp front.length s).pending
        = front ++ newlyInserted qlist s.pending ++ back ∧
    (resolveLoop qlist true temp front.length s).temporary
        = s.temporary ++ (if temp then newlyInserted qlist s.pending else []) ∧
    (resolveLoop qlist true temp front.length s).timerStarts
        = s.timerStarts + (if temp then (newlyInserted qlist s.pending).length else 0) ∧
    (resolveLoop qlist true temp front.length s).timerActive
        = (s.timerActive || (temp && !(newlyInserted qlist s.pending).isEmpty)) := by
  intro qlist
  induction qlist with
  | nil =>
    intro front back s hs
    simp [resolveLoop, newlyInserted, hs]
  | cons q rest ih =>
    intro front back s hs
    simp only [resolveLoop, newlyInserted, resolveLedger_pending, eq_self_iff_true, if_true]
    by_cases h2 : memN q.qid s.pending = true
    · simp only [h2, if_true]
      have hrec := ih front back (resolveLedger q s) (by rw [resolveLedger_pending, hs])
      rw [resolveLedger_pending, resolveLedger_temporary, resolveLedger_timerStarts,
          resolveLedger_timerActive] at hrec
      exact hrec
    · simp only [h2, if_false, Bool.false_eq_true]
      have hpend : (resolveTemp temp q.qid (resolvePend true front.length q.qid
          (resolveLedger q s))).pending = (front ++ [q.qid]) ++ back := by
        rw [resolveTemp_pending, resolvePend_pending_prio, resolveLedger_pending, hs,
            insertAt_length_append]
        simp
      have hrec := ih (front ++ [q.qid]) back _ hpend
      rw [List.length_append, List.length_cons, List.length_nil, Nat.add_zero] at hrec
      have hmeq : ∀ x : Nat,
          memN x (resolveTemp temp q.qid (resolvePend true front.length q.qid
            (resolveLedger q s))).pending = memN x (q.qid :: s.pending) := by
        intro x
        rw [hpend, hs]
        have h1 : (front ++ [q.qid]) ++ back = front ++ q.qid :: back := by simp
        rw [h1, memN_append_cons_comm]
      rw [newlyInserted_congr rest _ _ hmeq, resolveTemp_temporary, resolvePend_temporary,
          resolveLedger_temporary, resolveTemp_timerStarts, resolvePend_timerStarts,
          resolveLedger_timerStarts, resolveTemp_timerActive, resolvePend_timerActive,
          resolveLedger_timerActive] at hrec
      obtain ⟨hp, htmp, hts, hta⟩ := hrec
      refine ⟨?_, ?_, ?_, ?_⟩
      · rw [hp]
        simp
      · rw [htmp]
        cases temp <;> simp
      · rw [hts]
        cases temp <;> simp [Nat.add_assoc] <;> omega
      · rw [hta]
        cases temp <;> simp [Bool.or_assoc]

theorem resolveLoop_nonprio (temp : Bool) : ∀ (qlist : List Query) (i : Nat) (s : PState),
    (resolveLoop qlist false temp i s).pending = s.pending ++ newlyInserted qlist s.pending ∧
    (resolveLoop qlist false temp i s).temporary
        = s.temporary ++ (if temp then newlyInserted qlist s.pending else []) ∧
    (resolveLoop qlist false temp i s).timerStarts
        = s.timerStarts + (if temp then (newlyInserted qlist s.pending).length else 0) ∧
    (resolveLoop qlist false temp i s).timerActive
        = (s.timerActive || (temp && !(newlyInserted qlist s.pending).isEmpty)) := by
  intro qlist
  induction qlist with
  | nil =>
    intro i s
    simp [resolveLoop, newlyInserted]
  | cons q rest ih =>
    intro i s
    simp only [resolveLoop, newlyInserted, resolveLedger_pending, Bool.false_eq_true, if_false]
    by_cases h2 : memN q.qid s.pending = true
    · simp only [h2, if_true]
      have hrec := ih i (resolveLedger q s)
      rw [resolveLedger_pending, resolveLedger_temporary, resolveLedger_timerStarts,
          resolveLedger_timerActive] at hrec
      exact hrec
    · simp only [h2, if_false, Bool.false_eq_true]
      have hrec := ih i (resolveTemp temp q.qid (resolvePend false i q.qid (resolveLedger q s)))
      have hpend : (resolveTemp temp q.qid (resolvePend false i q.qid
          (resolveLedger q s))).pending = s.pending ++ [q.qid] := by
        rw [resolveTemp_pending, resolvePend_pending_nonprio, resolveLedger_pending]
      have hmeq : ∀ x : Nat,
          memN x (s.pending ++ [q.qid]) = memN x (q.qid :: s.pending) := by
        intro x
        by_cases hx : q.qid = x <;> simp [memN_append, memN_cons_eq, memN, hx, Bool.or_comm]
      rw [hpend, newlyInserted_congr rest _ _ hmeq, resolveTemp_temporary,
          resolvePend_temporary, resolveLedger_temporary, resolveTemp_timerStarts,
          resolvePend_timerStarts, resolveLedger_timerStarts, resolveTemp_timerActive,
          resolvePend_timerActive, resolveLedger_timerActive] at hrec
      obtain ⟨hp, htmp, hts, hta⟩ := hrec
      refine ⟨?_, ?_, ?_, ?_⟩
      · rw [hp]
        simp
      · rw [htmp]
        cases temp <;> simp
      · rw [hts]
        cases temp <;> simp <;> omega
      · rw [hta]
        cases temp <;> simp [Bool.or_assoc]

/-- C5: within one submission batch, the newly inserted requests end up
at the front of the pending queue in batch order, ahead of everything
already pending, when prioritized; appended at the back in batch order
otherwise. -/
theorem resolve_submission_order (qlist : List Query) (temp : Bool) (s : PState) :
    (resolveInsert qlist true temp s).pending
        = newlyInserted qlist s.pending ++ s.pending ∧
    (resolveInsert qlist false temp s).pending
        = s.pending ++ newlyInserted qlist s.pending := by
  constructor
  · have h := (resolveLoop_prio temp qlist [] s.pending s (by simp)).1
    simpa [resolveInsert] using h
  · exact (resolveLoop_nonprio temp qlist 0 s).1

theorem resolveLoop_single_pending_noop {q : Query} {prio temp : Bool} {i : Nat} {s : PState}
    (h : memN q.qid s.pending = true) :
    (resolveLoop [q] prio temp i s).pending = s.pending := by
  simp only [resolveLoop, resolveLedger_pending, h, if_true]

theorem resolveInsert_single_contains {q : Query} {prio temp : Bool} {s : PState} :
    memN q.qid (resolveInsert [q] prio temp s).pending = true := by
  unfold resolveInsert
  simp only [resolveLoop, resolveLedger_pending]
  by_cases h : memN q.qid s.pending = true
  · simp only [h, if_true, resolveLoop]
    rw [resolveLedger_pending]
    exact h
  · simp only [h, if_false, Bool.false_eq_true, resolveLoop]
    rw [resolveTemp_pending]
    cases prio
    · rw [resolvePend_pending_nonprio, memN_append, resolveLedger_pending]
      simp [memN]
    · rw [resolvePend_pending_prio, resolveLedger_pending]
      exact memN_insertAt_self 0

/-- C6: submitting a request already in the pending queue is a no-op
for the queue, so submitting the same request twice leaves the pending
queue exactly as submitting it once, and an already-pending request
keeps its position. -/
theorem resolve_idempotent_pending (q : Query) (prio temp : Bool) (s : PState) :
    (resolveInsert [q] prio temp (resolveInsert [q] prio temp s)).pending
        = (resolveInsert [q] prio temp s).pending ∧
    (memN q.qid s.pending = true →
      (resolveInsert [q] prio temp s).pending = s.pending) := by
  constructor
  · exact resolveLoop_single_pending_noop resolveInsert_single_contains
  · intro h
    exact resolveLoop_single_pending_noop h

/-- Witness for C6 at a concrete state: a request with id 5 already
pending; resubmitting it leaves the queue untouched. -/
theorem resolve_idempotent_pending_witness :
    (resolveInsert [⟨5, [], [], none, false, false, false⟩] false false
        { initState 4 with pending := [5] }).pending
      = ({ initState 4 with pending := [5] } : PState).pending :=
  (resolve_idempotent_pending ⟨5, [], [], none, false, false, false⟩ false false
    { initState 4 with pending := [5] }).2 (by decide)

/-- C7 counterexample: a temporary submission of a request that is
already pending does not touch the temporary set and does not restart
the reaper timer, contradicting the claim that every request of a
temporary batch is added and the timer rearmed. -/
theorem resolve_temporary_skips_pending_cex :
    ((step (step (initState 8)
        (Event.resolveE [⟨1, [], [], none, false, false, false⟩] false false))
        (Event.resolveE [⟨1, [], [], none, false, false, false⟩] false true)).temporary,
     (step (step (initState 8)
        (Event.resolveE [⟨1, [], [], none, false, false, false⟩] false false))
        (Event.resolveE [⟨1, [], [], none, false, false, false⟩] false true)).timerStarts,
     (step (step (initState 8)
        (Event.resolveE [⟨1, [], [], none, false, false, false⟩] false false))
        (Event.resolveE [⟨1, [], [], none, false, false, false⟩] false true)).timerActive)
      = ([], 0, false) := by decide

/-- C7 as amended: a temporary submission adds exactly the requests
that are newly inserted into the pending queue to the temporary set (in
batch order) and restarts the debounce timer once per such insertion;
requests skipped because they are already pending are not recorded and
do not touch the timer. -/
theorem resolve_temporary_tracking (qlist : List Query) (prio : Bool) (s : PState) :
    (resolveInsert qlist prio true s).temporary
        = s.temporary ++ newlyInserted qlist s.pending ∧
    (resolveInsert qlist prio true s).timerStarts
        = s.timerStarts + (newlyInserted qlist s.pending).length ∧
    (resolveInsert qlist prio true s).timerActive
        = (s.timerActive || !(newlyInserted qlist s.pending).isEmpty) := by
  cases prio
  · have h := resolveLoop_nonprio true qlist 0 s
    exact ⟨by simpa [resolveInsert] using h.2.1,
           by simpa [resolveInsert] using h.2.2.1,
           by simpa [resolveInsert] using h.2.2.2⟩
  · have h := resolveLoop_prio true qlist [] s.pending s (by simp)
    exact ⟨by simpa [resolveInsert] using h.2.1,
           by simpa [resolveInsert] using h.2.2.1,
           by simpa [resolveInsert] using h.2.2.2⟩

/-- C4: a result report for a request id unknown to the ledger (in
particular one already finalized and evicted) leaves the whole pipeline
state unchanged, on every call, repeated calls included. -/
theorem reportResults_unknown_noop (s : PState) (qid : Nat) (results : List Nat) (pl : Bool)
    (h : memN qid s.qids = false) :
    reportResults qid results pl s = s := by
  unfold reportResults
  by_cases hr : s.running = true
  · simp [hr, h]
  · simp [hr]

/-- Witness for C4: a report for id 7 on a started but empty pipeline
is dropped without any state change. -/
theorem reportResults_unknown_noop_witness :
    reportResults 7 [1] true { initState 4 with running := true }
      = { initState 4 with running := true } :=
  reportResults_unknown_noop { initState 4 with running := true } 7 [1] true (by decide)

/-- C3: on a running pipeline, a non-empty result report that leaves
the request satisfied and not an exhaustive search finalizes the
request immediately with budget 0: the budget entry is gone (not
decremented), `onResolvingFinished` has fired, and only a dispatch pass
is scheduled, never another resolver attempt for this request. -/
theorem reportResults_early_success (s : PState) (qid : Nat) (results : List Nat) (q : Query)
    (hrun : s.running = true) (hq : memN qid s.qids = true)
    (hheap : mapLookup qid s.heap = some q)
    (hne : results.isEmpty = false) (hft : q.isFullTextQuery = false) :
    mapContains qid (reportResults qid results true s).qidsState = false ∧
    mapLookup qid (reportResults qid results true s).heap
        = some { q with results := q.results ++ results, playable := true,
                        resolvingFinished := true } ∧
    (reportResults qid results true s).tasks = s.tasks ++ [Task.shuntNextT] := by
  unfold reportResults
  simp only [hrun, hq, hheap, hne, if_true, Bool.false_eq_true, if_false]
  simp only [hft, Bool.not_false, Bool.and_true, if_true]
  unfold setQIDState
  simp only [show ¬((0 : Int) < 0) from by omega, if_false]
  refine ⟨mapContains_remove_self, ?_, by simp⟩
  rw [mapLookup_heapUpdate_self, mapLookup_heapUpdate_self, hheap]
  rfl

/-- Witness for C3: a running pipeline with request 3 holding a budget
of 2; a satisfying one-result report removes the budget entry outright
and schedules only a dispatch pass. -/
theorem reportResults_early_success_witness :
    mapContains 3 (reportResults 3 [9] true
        { initState 4 with running := true, qids := [3],
                           heap := [(3, ⟨3, [], [], none, false, false, false⟩)],
                           qidsState := [(3, 2)] }).qidsState = false ∧
    mapLookup 3 (reportResults 3 [9] true
        { initState 4 with running := true, qids := [3],
                           heap := [(3, ⟨3, [], [], none, false, false, false⟩)],
                           qidsState := [(3, 2)] }).heap
        = some { (⟨3, [], [], none, false, false, false⟩ : Query) with
                   results := ([] : List Nat) ++ [9], playable := true,
                   resolvingFinished := true } ∧
    (reportResults 3 [9] true
        { initState 4 with running := true, qids := [3],
                           heap := [(3, ⟨3, [], [], none, false, false, false⟩)],
                           qidsState := [(3, 2)] }).tasks
        = ({ initState 4 with running := true, qids := [3],
                              heap := [(3, ⟨3, [], [], none, false, false, false⟩)],
                              qidsState := [(3, 2)] } : PState).tasks ++ [Task.shuntNextT] :=
  reportResults_early_success _ 3 [9] ⟨3, [], [], none, false, false, false⟩
    (by decide) (by decide) (by decide) (by decide) (by decide)

/-- C10: resolver registration appends with no duplicate check, so the
same capability can appear twice; a single unregistration removes every
occurrence of that capability. -/
theorem resolver_registry_append_removeAll :
    (∀ (r : Resolver) (s : PState), (addResolver r s).resolvers = s.resolvers ++ [r]) ∧
    (∀ (r : Resolver) (s : PState),
      (addResolver r (addResolver r s)).resolvers = s.resolvers ++ [r, r]) ∧
    (∀ (rid : Nat) (s : PState),
      (removeResolver rid s).resolvers.filter (fun x => x.rid = rid) = []) ∧
    (∀ (r : Resolver) (s : PState),
      (removeResolver r.rid s).resolvers.contains r = false) := by
  refine ⟨fun r s => rfl, fun r s => by simp [addResolver], ?_, ?_⟩
  · intro rid s
    rw [List.filter_eq_nil_iff]
    intro a ha
    have h2 := (List.mem_filter.mp ha).2
    simp at h2 ⊢
    exact h2
  · intro r s
    unfold removeResolver
    have hnm : r ∉ s.resolvers.filter (fun x => decide (x.rid ≠ r.rid)) := by
      intro hmem
      have h2 := (List.mem_filter.mp hmem).2
      simp at h2
    simpa using hnm

theorem memN_cons_self {x : Nat} {l : List Nat} : memN x (x :: l) = true := by
  simp [memN]

theorem memN_cons_of {k x : Nat} {l : List Nat} (h : memN k l = true) :
    memN k (x :: l) = true := by
  simp [memN_cons_eq, h]

theorem memN_filter_imp {k : Nat} {p : Nat → Bool} {l : List Nat}
    (h : memN k (l.filter p) = true) : memN k l = true := by
  induction l with
  | nil => simpa [memN] using h
  | cons y ys ih =>
    rw [List.filter_cons] at h
    by_cases hp : p y = true
    · rw [if_pos hp] at h
      by_cases hk : y = k
      · subst hk; exact memN_cons_self
      · have h2 : memN k (ys.filter p) = true := by
          rw [memN_cons_eq] at h
          simpa [hk] using h
        exact memN_cons_of (ih h2)
    · rw [if_neg hp] at h
      exact memN_cons_of (ih h)

theorem setQIDState_flag_self {qid : Nat} {st : Int} {s : PState} :
    memN qid (setQIDState qid st s).qidsTimeout = false := by
  unfold setQIDState
  by_cases h : (0 : Int) < st
  · rw [if_pos h]
    exact memN_filter_ne_self
  · rw [if_neg h]
    exact memN_filter_ne_self

theorem setQIDState_flag_ne {k qid : Nat} {st : Int} {s : PState} (h : k ≠ qid) :
    memN k (setQIDState qid st s).qidsTimeout = memN k s.qidsTimeout := by
  unfold setQIDState
  by_cases h2 : (0 : Int) < st
  · rw [if_pos h2]
    exact memN_filter_ne_of_ne h
  · rw [if_neg h2]
    exact memN_filter_ne_of_ne h

theorem setQIDState_idleEmits {qid : Nat} {st : Int} {s : PState} :
    (setQIDState qid st s).idleEmits = s.idleEmits := by
  unfold setQIDState
  by_cases h : (0 : Int) < st <;> simp [h]

theorem decQIDState_idleEmits {qid : Nat} {s : PState} :
    (decQIDState qid s).idleEmits = s.idleEmits := by
  unfold decQIDState
  by_cases h : mapContains qid s.qidsState = true <;> simp [h, setQIDState_idleEmits]

theorem setQIDState_inv {qid : Nat} {st : Int} {s : PState} (hInv : Inv s)
    (hheap : mapContains qid s.heap = true)
    (hb : 0 < st →
      (mapContains qid s.qidsState = true ∨ s.qidsState.length < s.maxConcurrentQueries)) :
    Inv (setQIDState qid st s) := by
  unfold setQIDState
  by_cases hst : (0 : Int) < st
  · rw [if_pos hst]
    refine ⟨?_, ?_, ?_, ?_, ?_, ?_⟩
    · rcases hb hst with hc | hlt
      · show (mapInsert qid st s.qidsState).length ≤ s.maxConcurrentQueries
        rw [length_mapInsert_of_contains hc]
        exact hInv.budget
      · exact Nat.le_trans length_mapInsert_le hlt
    · intro k hk
      by_cases hkq : k = qid
      · subst hkq
        rw [show ({ s with qidsTimeout := s.qidsTimeout.filter (fun x => x ≠ k) } :
            PState).qidsTimeout = s.qidsTimeout.filter (fun x => x ≠ k) from rfl] at hk
        rw [memN_filter_ne_self] at hk
        exact absurd hk (by simp)
      · replace hk : memN k (s.qidsTimeout.filter (fun x => x ≠ qid)) = true := hk
        rw [memN_filter_ne_of_ne hkq] at hk
        exact mapContains_insert_of (hInv.flagState k hk)
    · intro k q hmem hlook hfin
      rcases List.mem_append.mp hmem with hm | hm
      · exact mapContains_insert_of (hInv.taskState k q hm hlook hfin)
      · have : Task.shuntT k = Task.shuntT qid := by simpa using hm
        have hkq : k = qid := by injection this
        subst hkq
        exact mapContains_insert_self
    · intro k hk
      exact hInv.pendingHeap k hk
    · intro k hk
      exact hInv.ledgerHeap k hk
    · intro k hmem
      rcases hmem with hm | hm
      · rcases List.mem_append.mp hm with h2 | h2
        · exact hInv.taskHeap k (Or.inl h2)
        · have : Task.shuntT k = Task.shuntT qid := by simpa using h2
          have hkq : k = qid := by injection this
          subst hkq
          exact hheap
      · rcases List.mem_append.mp hm with h2 | h2
        · exact hInv.taskHeap k (Or.inr h2)
        · exact Task.noConfusion (List.mem_singleton.mp h2)
  · rw [if_neg hst]
    refine ⟨?_, ?_, ?_, ?_, ?_, ?_⟩
    · exact Nat.le_trans length_mapRemove_le hInv.budget
    · intro k hk
      by_cases hkq : k = qid
      · subst hkq
        replace hk : memN k (s.qidsTimeout.filter (fun x => x ≠ k)) = true := hk
        rw [memN_filter_ne_self] at hk
        exact absurd hk (by simp)
      · replace hk : memN k (s.qidsTimeout.filter (fun x => x ≠ qid)) = true := hk
        rw [memN_filter_ne_of_ne hkq] at hk
        rw [mapContains_remove_ne hkq]
        exact hInv.flagState k hk
    · intro k q hmem hlook hfin
      rcases List.mem_append.mp hmem with hm | hm
      · by_cases hkq : k = qid
        · subst hkq
          replace hlook : mapLookup k (heapUpdate k
              (fun q => { q with resolvingFinished := true }) s.heap) = some q := hlook
          rw [mapLookup_heapUpdate_self] at hlook
          cases hL : mapLookup k s.heap with
          | none => rw [hL] at hlook; exact absurd hlook (by simp)
          | some q0 =>
            rw [hL] at hlook
            have hq : ({ q0 with resolvingFinished := true } : Query) = q := by
              simpa using hlook
            rw [← hq] at hfin
            exact absurd hfin (by simp)
        · replace hlook : mapLookup k (heapUpdate qid
              (fun q => { q with resolvingFinished := true }) s.heap) = some q := hlook
          rw [mapLookup_heapUpdate_ne hkq] at hlook
          rw [mapContains_remove_ne hkq]
          exact hInv.taskState k q hm hlook hfin
      · exact Task.noConfusion (List.mem_singleton.mp hm)
    · intro k hk
      rw [mapContains_heapUpdate]
      exact hInv.pendingHeap k hk
    · intro k hk
      rw [mapContains_heapUpdate]
      by_cases ht : memN qid s.temporary = true
      · replace hk : memN k (if memN qid s.temporary = true then s.qids
            else s.qids.filter (fun x => x ≠ qid)) = true := hk
        rw [if_pos ht] at hk
        exact hInv.ledgerHeap k hk
      · replace hk : memN k (if memN qid s.temporary = true then s.qids
            else s.qids.filter (fun x => x ≠ qid)) = true := hk
        rw [if_neg ht] at hk
        exact hInv.ledgerHeap k (memN_filter_imp hk)
    · intro k hmem
      rw [mapContains_heapUpdate]
      rcases hmem with hm | hm
      · rcases List.mem_append.mp hm with h2 | h2
        · exact hInv.taskHeap k (Or.inl h2)
        · exact Task.noConfusion (List.mem_singleton.mp h2)
      · rcases List.mem_append.mp hm with h2 | h2
        · exact hInv.taskHeap k (Or.inr h2)
        · exact Task.noConfusion (List.mem_singleton.mp h2)

theorem decQIDState_inv {qid : Nat} {s : PState} (hInv : Inv s)
    (hheap : mapContains qid s.heap = true) :
    Inv (decQIDState qid s) := by
  unfold decQIDState
  by_cases hc : mapContains qid s.qidsState = true
  · rw [if_pos hc]
    exact setQIDState_inv hInv hheap (fun _ => Or.inl hc)
  · rw [if_neg hc]
    exact hInv

theorem shuntNext_inv {s : PState} (hInv : Inv s) : Inv (shuntNext s) := by
  unfold shuntNext
  by_cases hr : s.running = true
  · rw [if_pos hr]
    cases hp : s.pending with
    | nil =>
      by_cases he : s.qidsState.isEmpty = true
      · rw [if_pos he]
        show Inv { s with pending := [], idleEmits := s.idleEmits + 1 }
        exact ⟨hInv.budget, hInv.flagState, hInv.taskState,
               fun k hk => by simp [memN] at hk, hInv.ledgerHeap, hInv.taskHeap⟩
      · rw [if_neg he]
        show Inv s
        exact hInv
    | cons qid rest =>
      show Inv (if s.maxConcurrentQueries ≤ s.qidsState.length then s
        else setQIDState qid (s.resolvers.length : Int)
          { s with
            pending := rest,
            heap := heapUpdate qid (fun q => { q with currentResolver := none }) s.heap })
      by_cases hc : s.maxConcurrentQueries ≤ s.qidsState.length
      · rw [if_pos hc]
        exact hInv
      · rw [if_neg hc]
        have hq : mapContains qid s.heap = true :=
          hInv.pendingHeap qid (by rw [hp]; exact memN_cons_self)
        have hInv1 : Inv { s with
            pending := rest,
            heap := heapUpdate qid (fun q => { q with currentResolver := none }) s.heap } := by
          refine ⟨hInv.budget, hInv.flagState, ?_, ?_, ?_, ?_⟩
          · intro k q hmem hlook hfin
            by_cases hkq : k = qid
            · subst hkq
              replace hlook : mapLookup k (heapUpdate k
                  (fun q => { q with currentResolver := none }) s.heap) = some q := hlook
              rw [mapLookup_heapUpdate_self] at hlook
              cases hL : mapLookup k s.heap with
              | none => rw [hL] at hlook; exact absurd hlook (by simp)
              | some q0 =>
                rw [hL] at hlook
                have hq0 : ({ q0 with currentResolver := none } : Query) = q := by
                  simpa using hlook
                have hfin0 : q0.resolvingFinished = false := by
                  rw [← hq0] at hfin
                  exact hfin
                exact hInv.taskState k q0 hmem hL hfin0
            · replace hlook : mapLookup k (heapUpdate qid
                  (fun q => { q with currentResolver := none }) s.heap) = some q := hlook
              rw [mapLookup_heapUpdate_ne hkq] at hlook
              exact hInv.taskState k q hmem hlook hfin
          · intro k hk
            rw [mapContains_heapUpdate]
            exact hInv.pendingHeap k (by rw [hp]; exact memN_cons_of hk)
          · intro k hk
            rw [mapContains_heapUpdate]
            exact hInv.ledgerHeap k hk
          · intro k hm
            rw [mapContains_heapUpdate]
            exact hInv.taskHeap k hm
        exact setQIDState_inv hInv1 (by rw [mapContains_heapUpdate]; exact hq)
          (fun _ => Or.inr (Nat.lt_of_not_le hc))
  · rw [if_neg hr]
    exact hInv

theorem shunt_inv {qid : Nat} {s : PState} (hInv : Inv s)
    (hJ : ∀ q : Query, mapLookup qid s.heap = some q → q.resolvingFinished = false →
      mapContains qid s.qidsState = true) :
    Inv (shunt qid s) := by
  unfold shunt
  by_cases hr : s.running = true
  · rw [if_pos hr]
    cases hL : mapLookup qid s.heap with
    | none => exact hInv
    | some q =>
      show Inv (match (if q.resolvingFinished then none
          else nextResolver q.resolvedBy s.resolvers : Option Resolver) with
        | some r =>
          shuntNext (if 0 < r.timeout then
            { s with
              heap := heapUpdate qid (fun qu => { qu with currentResolver := some r.rid, resolvedBy := setInsert r.rid qu.resolvedBy }) s.heap,
              qidsTimeout := setInsert qid s.qidsTimeout,
              tasks := s.tasks ++ [Task.timeoutT qid] }
            else
            { s with
              heap := heapUpdate qid (fun qu => { qu with currentResolver := some r.rid, resolvedBy := setInsert r.rid qu.resolvedBy }) s.heap,
              qidsTimeout := setInsert qid s.qidsTimeout })
        | none => setQIDState qid 0 s)
      have hqh : mapContains qid s.heap = true := by
        rw [mapContains_lookup_isSome, hL]
        rfl
      by_cases hfin : q.resolvingFinished = true
      · rw [if_pos hfin]
        show Inv (setQIDState qid 0 s)
        exact setQIDState_inv hInv hqh (fun h0 => absurd h0 (by omega))
      · have hfin0 : q.resolvingFinished = false := by simpa using hfin
        rw [if_neg hfin]
        cases hN : nextResolver q.resolvedBy s.resolvers with
        | none =>
          show Inv (setQIDState qid 0 s)
          exact setQIDState_inv hInv hqh (fun h0 => absurd h0 (by omega))
        | some r =>
          show Inv (shuntNext (if 0 < r.timeout then
            { s with
              heap := heapUpdate qid (fun qu => { qu with currentResolver := some r.rid, resolvedBy := setInsert r.rid qu.resolvedBy }) s.heap,
              qidsTimeout := setInsert qid s.qidsTimeout,
              tasks := s.tasks ++ [Task.timeoutT qid] }
            else
            { s with
              heap := heapUpdate qid (fun qu => { qu with currentResolver := some r.rid, resolvedBy := setInsert r.rid qu.resolvedBy }) s.heap,
              qidsTimeout := setInsert qid s.qidsTimeout }))
          have hqs : mapContains qid s.qidsState = true := hJ q hL hfin0
          have hbase : Inv { s with
              heap := heapUpdate qid (fun qu => { qu with currentResolver := some r.rid, resolvedBy := setInsert r.rid qu.resolvedBy }) s.heap,
              qidsTimeout := setInsert qid s.qidsTimeout } := by
            refine ⟨hInv.budget, ?_, ?_, ?_, ?_, ?_⟩
            · intro k hk
              by_cases hkq : k = qid
              · subst hkq
                exact hqs
              · replace hk : memN k (setInsert qid s.qidsTimeout) = true := hk
                rw [memN_setInsert_ne hkq] at hk
                exact hInv.flagState k hk
            · intro k q2 hmem hlook hfin2
              by_cases hkq : k = qid
              · subst hkq
                exact hqs
              · replace hlook : mapLookup k (heapUpdate qid
                    (fun qu => { qu with currentResolver := some r.rid, resolvedBy := setInsert r.rid qu.resolvedBy }) s.heap) = some q2 := hlook
                rw [mapLookup_heapUpdate_ne hkq] at hlook
                exact hInv.taskState k q2 hmem hlook hfin2
            · intro k hk
              rw [mapContains_heapUpdate]
              exact hInv.pendingHeap k hk
            · intro k hk
              rw [mapContains_heapUpdate]
              exact hInv.ledgerHeap k hk
            · intro k hm
              rw [mapContains_heapUpdate]
              exact hInv.taskHeap k hm
          apply shuntNext_inv
          by_cases htm : 0 < r.timeout
          · rw [if_pos htm]
            refine ⟨hbase.budget, hbase.flagState, ?_, hbase.pendingHeap,
                    hbase.ledgerHeap, ?_⟩
            · intro k q2 hmem hlook hfin2
              rcases List.mem_append.mp hmem with hm | hm
              · exact hbase.taskState k q2 hm hlook hfin2
              · exact Task.noConfusion (List.mem_singleton.mp hm)
            · intro k hm
              rcases hm with hm | hm
              · rcases List.mem_append.mp hm with h2 | h2
                · exact hbase.taskHeap k (Or.inl h2)
                · exact Task.noConfusion (List.mem_singleton.mp h2)
              · rcases List.mem_append.mp hm with h2 | h2
                · exact hbase.taskHeap k (Or.inr h2)
                · have hk2 : Task.timeoutT k = Task.timeoutT qid := List.mem_singleton.mp h2
                  have hkq : k = qid := by injection hk2
                  subst hkq
                  rw [mapContains_heapUpdate]
                  exact hqh
          · rw [if_neg htm]
            exact hbase
  · rw [if_neg hr]
    exact hInv

theorem timeoutShunt_inv {qid : Nat} {s : PState} (hInv : Inv s)
    (hheap : mapContains qid s.heap = true) :
    Inv (timeoutShunt qid s) := by
  unfold timeoutShunt
  by_cases hr : s.running = true
  · rw [if_pos hr]
    by_cases hf : memN qid s.qidsTimeout = true
    · rw [if_pos hf]
      exact decQIDState_inv hInv hheap
    · rw [if_neg hf]
      exact hInv
  · rw [if_neg hr]
    exact hInv

theorem reportResults_inv {qid : Nat} {results : List Nat} {pl : Bool} {s : PState}
    (hInv : Inv s) : Inv (reportResults qid results pl s) := by
  unfold reportResults
  by_cases hr : s.running = true
  · rw [if_pos hr]
    by_cases hq : memN qid s.qids = true
    · rw [if_pos hq]
      cases hL : mapLookup qid s.heap with
      | none => exact hInv
      | some q =>
        show Inv (if results.isEmpty then decQIDState qid s
          else
            if ({ q with results := q.results ++ results, playable := pl } : Query).playable
                && !({ q with results := q.results ++ results, playable := pl } : Query).isFullTextQuery then
              setQIDState qid 0
                { s with
                  heap := heapUpdate qid
                    (fun _ => { q with results := q.results ++ results, playable := pl }) s.heap,
                  rids := ({ q with results := q.results ++ results, playable := pl } : Query).results.foldl (fun acc r => setInsert r acc) s.rids }
            else
              decQIDState qid
                { s with
                  heap := heapUpdate qid
                    (fun _ => { q with results := q.results ++ results, playable := pl }) s.heap,
                  rids := ({ q with results := q.results ++ results, playable := pl } : Query).results.foldl (fun acc r => setInsert r acc) s.rids })
        have hqh : mapContains qid s.heap = true := by
          rw [mapContains_lookup_isSome, hL]
          rfl
        by_cases he : results.isEmpty = true
        · rw [if_pos he]
          exact decQIDState_inv hInv hqh
        · rw [if_neg he]
          have hInv2 : Inv { s with
              heap := heapUpdate qid
                (fun _ => { q with results := q.results ++ results, playable := pl }) s.heap,
              rids := ({ q with results := q.results ++ results, playable := pl } : Query).results.foldl (fun acc r => setInsert r acc) s.rids } := by
            refine ⟨hInv.budget, hInv.flagState, ?_, ?_, ?_, ?_⟩
            · intro k q2 hmem hlook hfin2
              by_cases hkq : k = qid
              · subst hkq
                replace hlook : mapLookup k (heapUpdate k
                    (fun _ => { q with results := q.results ++ results, playable := pl }) s.heap) = some q2 := hlook
                rw [mapLookup_heapUpdate_self, hL] at hlook
                have hq2 : ({ q with results := q.results ++ results, playable := pl } : Query) = q2 := by simpa using hlook
                have hfin0 : q.resolvingFinished = false := by
                  rw [← hq2] at hfin2
                  exact hfin2
                exact hInv.taskState k q hmem hL hfin0
              · replace hlook : mapLookup k (heapUpdate qid
                    (fun _ => { q with results := q.results ++ results, playable := pl }) s.heap) = some q2 := hlook
                rw [mapLookup_heapUpdate_ne hkq] at hlook
                exact hInv.taskState k q2 hmem hlook hfin2
            · intro k hk
              rw [mapContains_heapUpdate]
              exact hInv.pendingHeap k hk
            · intro k hk
              rw [mapContains_heapUpdate]
              exact hInv.ledgerHeap k hk
            · intro k hm
              rw [mapContains_heapUpdate]
              exact hInv.taskHeap k hm
          have hqh2 : mapContains qid (heapUpdate qid
              (fun _ => { q with results := q.results ++ results, playable := pl }) s.heap) = true := by
            rw [mapContains_heapUpdate]
            exact hqh
          by_cases hpl : (({ q with results := q.results ++ results, playable := pl } : Query).playable
              && !({ q with results := q.results ++ results, playable := pl } : Query).isFullTextQuery) = true
          · rw [if_pos hpl]
            exact setQIDState_inv hInv2 hqh2 (fun h0 => absurd h0 (by omega))
          · rw [if_neg hpl]
            exact decQIDState_inv hInv2 hqh2
    · rw [if_neg hq]
      exact hInv
  · rw [if_neg hr]
    exact hInv

theorem memN_insertAt_cases {k x : Nat} : ∀ {l : List Nat} {i : Nat},
    memN k (insertAt i x l) = true → k = x ∨ memN k l = true := by
  intro l
  induction l with
  | nil =>
    intro i h
    by_cases hx : x = k
    · exact Or.inl hx.symm
    · rw [show insertAt i x [] = [x] from by cases i <;> rfl] at h
      simp [memN, hx] at h
  | cons y ys ih =>
    intro i h
    cases i with
    | zero =>
      rw [show insertAt 0 x (y :: ys) = x :: y :: ys from rfl, memN_cons_eq] at h
      by_cases hx : x = k
      · exact Or.inl hx.symm
      · simp only [hx, decide_eq_true_eq, false_or, Bool.false_or] at h
        exact Or.inr (by simpa using h)
    | succ j =>
      rw [show insertAt (j + 1) x (y :: ys) = y :: insertAt j x ys from rfl,
          memN_cons_eq] at h
      by_cases hy : y = k
      · subst hy
        exact Or.inr memN_cons_self
      · simp only [hy, decide_eq_true_eq, false_or, Bool.false_or] at h
        rcases ih (by simpa using h) with h2 | h2
        · exact Or.inl h2
        · exact Or.inr (memN_cons_of h2)

theorem resolveLedger_inv {q : Query} {s : PState} (hInv : Inv s) :
    Inv (resolveLedger q s) := by
  unfold resolveLedger
  by_cases hq : memN q.qid s.qids = true
  · rw [if_pos hq]
    exact hInv
  · rw [if_neg hq]
    refine ⟨hInv.budget, hInv.flagState, ?_, ?_, ?_, ?_⟩
    · intro k q2 hmem hlook hfin
      by_cases hkq : k = q.qid
      · subst hkq
        replace hlook : mapLookup q.qid
            (mapInsert q.qid ((mapLookup q.qid s.heap).getD q) s.heap) = some q2 := hlook
        rw [mapLookup_insert_self] at hlook
        cases hL : mapLookup q.qid s.heap with
        | none =>
          have hc : mapContains q.qid s.heap = true := hInv.taskHeap q.qid (Or.inl hmem)
          rw [mapContains_lookup_isSome, hL] at hc
          exact absurd hc (by simp)
        | some q0 =>
          have hq2 : q2 = q0 := by
            rw [hL] at hlook
            simpa using hlook.symm
          subst hq2
          exact hInv.taskState q.qid q2 hmem hL hfin
      · replace hlook : mapLookup k
            (mapInsert q.qid ((mapLookup q.qid s.heap).getD q) s.heap) = some q2 := hlook
        rw [mapLookup_insert_ne hkq] at hlook
        exact hInv.taskState k q2 hmem hlook hfin
    · intro k hk
      exact mapContains_insert_of (hInv.pendingHeap k hk)
    · intro k hk
      replace hk : memN k (s.qids ++ [q.qid]) = true := hk
      rw [memN_append] at hk
      rcases Bool.or_eq_true_iff.mp hk with h2 | h2
      · exact mapContains_insert_of (hInv.ledgerHeap k h2)
      · have hkq : k = q.qid := by
          by_cases hx : q.qid = k
          · exact hx.symm
          · simp [memN, hx] at h2
        subst hkq
        exact mapContains_insert_self
    · intro k hm
      exact mapContains_insert_of (hInv.taskHeap k hm)

theorem resolveLedger_heap_self {q : Query} {s : PState} (hInv : Inv s) :
    mapContains q.qid (resolveLedger q s).heap = true := by
  unfold resolveLedger
  by_cases hq : memN q.qid s.qids = true
  · rw [if_pos hq]
    exact hInv.ledgerHeap q.qid hq
  · rw [if_neg hq]
    exact mapContains_insert_self

theorem resolvePend_inv {prio : Bool} {i qid : Nat} {s : PState} (hInv : Inv s)
    (hheap : mapContains qid s.heap = true) :
    Inv (resolvePend prio i qid s) := by
  unfold resolvePend
  cases prio
  · simp only [Bool.false_eq_true, if_false]
    refine ⟨hInv.budget, hInv.flagState, hInv.taskState, ?_, hInv.ledgerHeap, hInv.taskHeap⟩
    intro k hk
    replace hk : memN k (s.pending ++ [qid]) = true := hk
    rw [memN_append] at hk
    rcases Bool.or_eq_true_iff.mp hk with h2 | h2
    · exact hInv.pendingHeap k h2
    · have hkq : k = qid := by
        by_cases hx : qid = k
        · exact hx.symm
        · simp [memN, hx] at h2
      subst hkq
      exact hheap
  · simp only [if_true]
    refine ⟨hInv.budget, hInv.flagState, hInv.taskState, ?_, hInv.ledgerHeap, hInv.taskHeap⟩
    intro k hk
    replace hk : memN k (insertAt i qid s.pending) = true := hk
    rcases memN_insertAt_cases hk with h2 | h2
    · subst h2
      exact hheap
    · exact hInv.pendingHeap k h2

theorem resolveTemp_inv {temp : Bool} {qid : Nat} {s : PState} (hInv : Inv s) :
    Inv (resolveTemp temp qid s) := by
  unfold resolveTemp
  cases temp
  · simp only [Bool.false_eq_true, if_false]
    exact hInv
  · simp only [if_true]
    exact ⟨hInv.budget, hInv.flagState, hInv.taskState, hInv.pendingHeap,
           hInv.ledgerHeap, hInv.taskHeap⟩

theorem resolveLoop_inv {prio temp : Bool} : ∀ {qlist : List Query} {i : Nat} {s : PState},
    Inv s → Inv (resolveLoop qlist prio temp i s) := by
  intro qlist
  induction qlist with
  | nil =>
    intro i s hInv
    exact hInv
  | cons q rest ih =>
    intro i s hInv
    simp only [resolveLoop]
    have hInv1 : Inv (resolveLedger q s) := resolveLedger_inv hInv
    by_cases h2 : memN q.qid (resolveLedger q s).pending = true
    · rw [if_pos h2]
      exact ih hInv1
    · rw [if_neg h2]
      exact ih (resolveTemp_inv (resolvePend_inv hInv1 (resolveLedger_heap_self hInv)))

theorem onTemporaryQueryTimer_inv {s : PState} (hInv : Inv s) :
    Inv (onTemporaryQueryTimer s) := by
  unfold onTemporaryQueryTimer
  refine ⟨hInv.budget, hInv.flagState, hInv.taskState, hInv.pendingHeap, ?_, hInv.taskHeap⟩
  intro k hk
  replace hk : memN k (s.qids.filter (fun x => !(memN x s.temporary))) = true := hk
  exact hInv.ledgerHeap k (memN_filter_imp hk)

theorem step_inv {s : PState} (hInv : Inv s) (e : Event) : Inv (step s e) := by
  cases e with
  | startE =>
    show Inv (shuntNext { s with running := true })
    exact shuntNext_inv ⟨hInv.budget, hInv.flagState, hInv.taskState, hInv.pendingHeap,
      hInv.ledgerHeap, hInv.taskHeap⟩
  | stopE =>
    show Inv { s with running := false }
    exact ⟨hInv.budget, hInv.flagState, hInv.taskState, hInv.pendingHeap,
      hInv.ledgerHeap, hInv.taskHeap⟩
  | addResolverE r =>
    show Inv { s with resolvers := s.resolvers ++ [r] }
    exact ⟨hInv.budget, hInv.flagState, hInv.taskState, hInv.pendingHeap,
      hInv.ledgerHeap, hInv.taskHeap⟩
  | removeResolverE rid =>
    show Inv { s with resolvers := s.resolvers.filter (fun x => x.rid ≠ rid) }
    exact ⟨hInv.budget, hInv.flagState, hInv.taskState, hInv.pendingHeap,
      hInv.ledgerHeap, hInv.taskHeap⟩
  | resolveE qlist prio temp =>
    show Inv (shuntNext (resolveLoop qlist prio temp 0 s))
    exact shuntNext_inv (resolveLoop_inv hInv)
  | reportResultsE qid results pl =>
    show Inv (reportResults qid results pl s)
    exact reportResults_inv hInv
  | reaperFireE =>
    show Inv (if s.timerActive then onTemporaryQueryTimer s else s)
    by_cases ht : s.timerActive = true
    · rw [if_pos ht]
      exact onTemporaryQueryTimer_inv hInv
    · rw [if_neg ht]
      exact hInv
  | runTaskE i =>
    show Inv (match s.tasks[i]? with
      | some t => runTask t { s with tasks := s.tasks.eraseIdx i }
      | none => s)
    cases hT : s.tasks[i]? with
    | none => exact hInv
    | some t =>
      have hmem : t ∈ s.tasks := by
        obtain ⟨hi, rfl⟩ := List.getElem?_eq_some.mp hT
        exact List.getElem_mem hi
      have hInvE : Inv { s with tasks := s.tasks.eraseIdx i } := by
        refine ⟨hInv.budget, hInv.flagState, ?_, hInv.pendingHeap, hInv.ledgerHeap, ?_⟩
        · intro k q hm hlook hfin
          exact hInv.taskState k q ((List.eraseIdx_sublist s.tasks i).subset hm) hlook hfin
        · intro k hm
          rcases hm with hm | hm
          · exact hInv.taskHeap k (Or.inl ((List.eraseIdx_sublist s.tasks i).subset hm))
          · exact hInv.taskHeap k (Or.inr ((List.eraseIdx_sublist s.tasks i).subset hm))
      cases t with
      | shuntT qid =>
        exact shunt_inv hInvE
          (fun q hlook hfin => hInv.taskState qid q hmem hlook hfin)
      | shuntNextT =>
        exact shuntNext_inv hInvE
      | timeoutT qid =>
        exact timeoutShunt_inv hInvE (hInv.taskHeap qid (Or.inr hmem))

theorem reachable_inv {ideal : Int} {s : PState} (h : Reachable ideal s) : Inv s := by
  induction h with
  | init =>
    refine ⟨?_, ?_, ?_, ?_, ?_, ?_⟩
    · exact Nat.zero_le _
    · intro k hk
      simp [initState, memN] at hk
    · intro k q hm _ _
      simp [initState] at hm
    · intro k hk
      simp [initState, memN] at hk
    · intro k hk
      simp [initState, memN] at hk
    · intro k hm
      rcases hm with hm | hm <;> simp [initState] at hm
  | next e _ ih =>
    exact step_inv ih e

/-- C2: in every reachable pipeline state, the number of request ids
holding an attempt-budget slot in `m_qidsState` is at most
`maxConcurrentQueries`: the dispatch pass refuses to pop a pending
request at the cap, and no reachable operation inserts a fresh budget
entry otherwise. -/
theorem qidsState_le_maxConcurrent (ideal : Int) (s : PState) (h : Reachable ideal s) :
    s.qidsState.length ≤ s.maxConcurrentQueries :=
  (reachable_inv h).budget

/-- Witness for C2 on a concrete trace: register a resolver, submit a
request and start; the single occupied slot respects the cap. -/
theorem qidsState_le_maxConcurrent_witness :
    (step (step (step (initState 8) (Event.addResolverE ⟨1, 5, 0⟩))
        (Event.resolveE [⟨1, [], [], none, false, false, false⟩] false false))
      Event.startE).qidsState.length ≤
    (step (step (step (initState 8) (Event.addResolverE ⟨1, 5, 0⟩))
        (Event.resolveE [⟨1, [], [], none, false, false, false⟩] false false))
      Event.startE).maxConcurrentQueries :=
  qidsState_le_maxConcurrent 8 _
    (Reachable.next Event.startE
      (Reachable.next (Event.resolveE [⟨1, [], [], none, false, false, false⟩] false false)
        (Reachable.next (Event.addResolverE ⟨1, 5, 0⟩) Reachable.init)))

theorem decQIDState_flag_self {qid : Nat} {s : PState}
    (hflag : memN qid s.qidsTimeout = true → mapContains qid s.qidsState = true) :
    memN qid (decQIDState qid s).qidsTimeout = false := by
  unfold decQIDState
  by_cases hc : mapContains qid s.qidsState = true
  · rw [if_pos hc]
    exact setQIDState_flag_self
  · rw [if_neg hc]
    by_cases hf : memN qid s.qidsTimeout = true
    · exact absurd (hflag hf) hc
    · simpa using hf

/-- C8: on a running, reachable pipeline, a result report for a
request id known to the ledger always leaves the request's
awaiting-timeout flag cleared when the call completes, whether the
result list was empty, the request became satisfied, or the
decremented budget reached zero. -/
theorem reportResults_clears_awaitingTimeout (ideal : Int) (s : PState) (qid : Nat)
    (results : List Nat) (pl : Bool) (hreach : Reachable ideal s)
    (hrun : s.running = true) (hq : memN qid s.qids = true) :
    memN qid (reportResults qid results pl s).qidsTimeout = false := by
  have hInv := reachable_inv hreach
  have hqh : mapContains qid s.heap = true := hInv.ledgerHeap qid hq
  unfold reportResults
  rw [if_pos hrun, if_pos hq]
  cases hL : mapLookup qid s.heap with
  | none =>
    rw [mapContains_lookup_isSome, hL] at hqh
    exact absurd hqh (by simp)
  | some q =>
    show memN qid (if results.isEmpty then decQIDState qid s
      else
        if ({ q with results := q.results ++ results, playable := pl } : Query).playable
            && !({ q with results := q.results ++ results, playable := pl } : Query).isFullTextQuery then
          setQIDState qid 0
            { s with
              heap := heapUpdate qid
                (fun _ => { q with results := q.results ++ results, playable := pl }) s.heap,
              rids := ({ q with results := q.results ++ results, playable := pl } : Query).results.foldl (fun acc r => setInsert r acc) s.rids }
        else
          decQIDState qid
            { s with
              heap := heapUpdate qid
                (fun _ => { q with results := q.results ++ results, playable := pl }) s.heap,
              rids := ({ q with results := q.results ++ results, playable := pl } : Query).results.foldl (fun acc r => setInsert r acc) s.rids }).qidsTimeout
      = false
    by_cases he : results.isEmpty = true
    · rw [if_pos he]
      exact decQIDState_flag_self (hInv.flagState qid)
    · rw [if_neg he]
      by_cases hpl :
          (({ q with results := q.results ++ results, playable := pl } : Query).playable
            && !({ q with results := q.results ++ results, playable := pl } : Query).isFullTextQuery) = true
      · rw [if_pos hpl]
        exact setQIDState_flag_self
      · rw [if_neg hpl]
        exact decQIDState_flag_self (hInv.flagState qid)

/-- Witness for C8 on a concrete trace: after registering a resolver,
submitting request 1 and starting, an empty report for request 1
leaves its timeout flag clear. -/
theorem reportResults_clears_awaitingTimeout_witness :
    memN 1 (reportResults 1 [] false
      (step (step (step (initState 8) (Event.addResolverE ⟨1, 5, 0⟩))
          (Event.resolveE [⟨1, [], [], none, false, false, false⟩] false false))
        Event.startE)).qidsTimeout = false :=
  reportResults_clears_awaitingTimeout 8 _ 1 [] false
    (Reachable.next Event.startE
      (Reachable.next (Event.resolveE [⟨1, [], [], none, false, false, false⟩] false false)
        (Reachable.next (Event.addResolverE ⟨1, 5, 0⟩) Reachable.init)))
    (by decide) (by decide)

theorem resolveLedger_idleEmits {q : Query} {s : PState} :
    (resolveLedger q s).idleEmits = s.idleEmits := by
  unfold resolveLedger
  by_cases h : memN q.qid s.qids = true <;> simp [h]

theorem resolvePend_idleEmits {prio : Bool} {i qid : Nat} {s : PState} :
    (resolvePend prio i qid s).idleEmits = s.idleEmits := by
  unfold resolvePend
  cases prio <;> simp

theorem resolveTemp_idleEmits {temp : Bool} {qid : Nat} {s : PState} :
    (resolveTemp temp qid s).idleEmits = s.idleEmits := by
  unfold resolveTemp
  cases temp <;> simp

theorem resolveLoop_idleEmits : ∀ (qlist : List Query) (prio temp : Bool) (i : Nat) (s : PState),
    (resolveLoop qlist prio temp i s).idleEmits = s.idleEmits := by
  intro qlist
  induction qlist with
  | nil => intro prio temp i s; rfl
  | cons q rest ih =>
    intro prio temp i s
    simp only [resolveLoop]
    by_cases h2 : memN q.qid (resolveLedger q s).pending = true
    · rw [if_pos h2, ih, resolveLedger_idleEmits]
    · rw [if_neg h2, ih, resolveTemp_idleEmits, resolvePend_idleEmits, resolveLedger_idleEmits]

theorem timeoutShunt_idleEmits {qid : Nat} {s : PState} :
    (timeoutShunt qid s).idleEmits = s.idleEmits := by
  unfold timeoutShunt
  by_cases hr : s.running = true
  · rw [if_pos hr]
    by_cases hf : memN qid s.qidsTimeout = true
    · rw [if_pos hf]
      exact decQIDState_idleEmits
    · rw [if_neg hf]
  · rw [if_neg hr]

theorem reportResults_idleEmits {qid : Nat} {results : List Nat} {pl : Bool} {s : PState} :
    (reportResults qid results pl s).idleEmits = s.idleEmits := by
  unfold reportResults
  by_cases hr : s.running = true
  · rw [if_pos hr]
    by_cases hq : memN qid s.qids = true
    · rw [if_pos hq]
      cases hL : mapLookup qid s.heap with
      | none => rfl
      | some q =>
        show (if results.isEmpty then decQIDState qid s
          else
            if ({ q with results := q.results ++ results, playable := pl } : Query).playable
                && !({ q with results := q.results ++ results, playable := pl } : Query).isFullTextQuery then
              setQIDState qid 0
                { s with
                  heap := heapUpdate qid
                    (fun _ => { q with results := q.results ++ results, playable := pl }) s.heap,
                  rids := ({ q with results := q.results ++ results, playable := pl } : Query).results.foldl (fun acc r => setInsert r acc) s.rids }
            else
              decQIDState qid
                { s with
                  heap := heapUpdate qid
                    (fun _ => { q with results := q.results ++ results, playable := pl }) s.heap,
                  rids := ({ q with results := q.results ++ results, playable := pl } : Query).results.foldl (fun acc r => setInsert r acc) s.rids }).idleEmits
          = s.idleEmits
        by_cases he : results.isEmpty = true
        · rw [if_pos he]
          exact decQIDState_idleEmits
        · rw [if_neg he]
          by_cases hpl :
              (({ q with results := q.results ++ results, playable := pl } : Query).playable
                && !({ q with results := q.results ++ results, playable := pl } : Query).isFullTextQuery) = true
          · rw [if_pos hpl]
            exact setQIDState_idleEmits
          · rw [if_neg hpl]
            exact decQIDState_idleEmits
    · rw [if_neg hq]
  · rw [if_neg hr]

theorem shuntNext_idle_iff (s : PState) :
    (shuntNext s).idleEmits = s.idleEmits +
      (if s.running = true ∧ s.pending = [] ∧ s.qidsState = [] then 1 else 0) := by
  unfold shuntNext
  by_cases hr : s.running = true
  · rw [if_pos hr]
    cases hp : s.pending with
    | nil =>
      by_cases he : s.qidsState.isEmpty = true
      · rw [if_pos he]
        have hqs : s.qidsState = [] := List.isEmpty_iff.mp he
        simp [hr, hqs]
      · rw [if_neg he]
        have hqs : ¬(s.qidsState = []) := fun hx => he (by simp [hx])
        simp [hqs]
    | cons qid rest =>
      show (if s.maxConcurrentQueries ≤ s.qidsState.length then s
        else setQIDState qid (s.resolvers.length : Int)
          { s with
            pending := rest,
            heap := heapUpdate qid (fun q => { q with currentResolver := none }) s.heap }).idleEmits
        = s.idleEmits + (if s.running = true ∧ qid :: rest = [] ∧ s.qidsState = [] then 1 else 0)
      have hcons : ¬(qid :: rest = ([] : List Nat)) := by simp
      by_cases hc : s.maxConcurrentQueries ≤ s.qidsState.length
      · rw [if_pos hc]
        simp [hcons]
      · rw [if_neg hc, setQIDState_idleEmits]
        simp [hcons]
  · rw [if_neg hr]
    simp [hr]

theorem shuntNext_emit {s : PState} (h : (shuntNext s).idleEmits ≠ s.idleEmits) :
    (shuntNext s).pending = [] ∧ (shuntNext s).qidsState = [] := by
  by_cases hcond : s.running = true ∧ s.pending = [] ∧ s.qidsState = []
  · obtain ⟨hr, hp, hqs⟩ := hcond
    unfold shuntNext
    rw [if_pos hr, hp, if_pos (by simp [hqs])]
    exact ⟨rfl, hqs⟩
  · have hiff := shuntNext_idle_iff s
    rw [if_neg hcond, Nat.add_zero] at hiff
    exact absurd hiff h

theorem shuntNext_emit_of_eq {t s : PState} (hidle : t.idleEmits = s.idleEmits)
    (h : (shuntNext t).idleEmits ≠ s.idleEmits) :
    (shuntNext t).pending = [] ∧ (shuntNext t).qidsState = [] :=
  shuntNext_emit (fun hx => h (by rw [hx, hidle]))

theorem shunt_emit {qid : Nat} {s : PState} (h : (shunt qid s).idleEmits ≠ s.idleEmits) :
    (shunt qid s).pending = [] ∧ (shunt qid s).qidsState = [] := by
  revert h
  unfold shunt
  by_cases hr : s.running = true
  · rw [if_pos hr]
    cases hL : mapLookup qid s.heap with
    | none => intro h; exact absurd rfl h
    | some q =>
      show ((match (if q.resolvingFinished then none
          else nextResolver q.resolvedBy s.resolvers : Option Resolver) with
        | some r =>
          shuntNext (if 0 < r.timeout then
            { s with
              heap := heapUpdate qid (fun qu => { qu with currentResolver := some r.rid, resolvedBy := setInsert r.rid qu.resolvedBy }) s.heap,
              qidsTimeout := setInsert qid s.qidsTimeout,
              tasks := s.tasks ++ [Task.timeoutT qid] }
            else
            { s with
              heap := heapUpdate qid (fun qu => { qu with currentResolver := some r.rid, resolvedBy := setInsert r.rid qu.resolvedBy }) s.heap,
              qidsTimeout := setInsert qid s.qidsTimeout })
        | none => setQIDState qid 0 s).idleEmits ≠ s.idleEmits) →
        ((match (if q.resolvingFinished then none
          else nextResolver q.resolvedBy s.resolvers : Option Resolver) with
        | some r =>
          shuntNext (if 0 < r.timeout then
            { s with
              heap := heapUpdate qid (fun qu => { qu with currentResolver := some r.rid, resolvedBy := setInsert r.rid qu.resolvedBy }) s.heap,
              qidsTimeout := setInsert qid s.qidsTimeout,
              tasks := s.tasks ++ [Task.timeoutT qid] }
            else
            { s with
              heap := heapUpdate qid (fun qu => { qu with currentResolver := some r.rid, resolvedBy := setInsert r.rid qu.resolvedBy }) s.heap,
              qidsTimeout := setInsert qid s.qidsTimeout })
        | none => setQIDState qid 0 s).pending = [] ∧
        (match (if q.resolvingFinished then none
          else nextResolver q.resolvedBy s.resolvers : Option Resolver) with
        | some r =>
          shuntNext (if 0 < r.timeout then
            { s with
              heap := heapUpdate qid (fun qu => { qu with currentResolver := some r.rid, resolvedBy := setInsert r.rid qu.resolvedBy }) s.heap,
              qidsTimeout := setInsert qid s.qidsTimeout,
              tasks := s.tasks ++ [Task.timeoutT qid] }
            else
            { s with
              heap := heapUpdate qid (fun qu => { qu with currentResolver := some r.rid, resolvedBy := setInsert r.rid qu.resolvedBy }) s.heap,
              qidsTimeout := setInsert qid s.qidsTimeout })
        | none => setQIDState qid 0 s).qidsState = [])
      cases hN : (if q.resolvingFinished then none
          else nextResolver q.resolvedBy s.resolvers : Option Resolver) with
      | none =>
        intro h
        exact absurd setQIDState_idleEmits h
      | some r =>
        intro h
        refine shuntNext_emit_of_eq ?_ h
        by_cases htm : 0 < r.timeout <;> simp [htm]
  · rw [if_neg hr]
    intro h
    exact absurd rfl h

theorem step_emit (s : PState) (e : Event) (h : (step s e).idleEmits ≠ s.idleEmits) :
    (step s e).pending = [] ∧ (step s e).qidsState = [] := by
  cases e with
  | startE =>
    show (shuntNext { s with running := true }).pending = [] ∧
      (shuntNext { s with running := true }).qidsState = []
    exact shuntNext_emit
      (show (shuntNext { s with running := true }).idleEmits
        ≠ ({ s with running := true } : PState).idleEmits from h)
  | stopE => exact absurd rfl h
  | addResolverE r => exact absurd rfl h
  | removeResolverE rid => exact absurd rfl h
  | resolveE qlist prio temp =>
    show (shuntNext (resolveLoop qlist prio temp 0 s)).pending = [] ∧
      (shuntNext (resolveLoop qlist prio temp 0 s)).qidsState = []
    have hL : (resolveLoop qlist prio temp 0 s).idleEmits = s.idleEmits :=
      resolveLoop_idleEmits qlist prio temp 0 s
    refine shuntNext_emit ?_
    intro hx
    exact h (by rw [show (step s (Event.resolveE qlist prio temp)).idleEmits
      = (shuntNext (resolveLoop qlist prio temp 0 s)).idleEmits from rfl, hx, hL])
  | reportResultsE qid results pl =>
    exact absurd reportResults_idleEmits h
  | reaperFireE =>
    revert h
    show ((if s.timerActive then onTemporaryQueryTimer s else s).idleEmits ≠ s.idleEmits) →
      ((if s.timerActive then onTemporaryQueryTimer s else s).pending = [] ∧
       (if s.timerActive then onTemporaryQueryTimer s else s).qidsState = [])
    by_cases ht : s.timerActive = true
    · rw [if_pos ht]
      intro h
      exact absurd rfl h
    · rw [if_neg ht]
      intro h
      exact absurd rfl h
  | runTaskE i =>
    revert h
    show ((match s.tasks[i]? with
      | some t => runTask t { s with tasks := s.tasks.eraseIdx i }
      | none => s).idleEmits ≠ s.idleEmits) →
      ((match s.tasks[i]? with
        | some t => runTask t { s with tasks := s.tasks.eraseIdx i }
        | none => s).pending = [] ∧
       (match s.tasks[i]? with
        | some t => runTask t { s with tasks := s.tasks.eraseIdx i }
        | none => s).qidsState = [])
    cases hT : s.tasks[i]? with
    | none =>
      intro h
      exact absurd rfl h
    | some t =>
      cases t with
      | shuntT qid =>
        intro h
        exact shunt_emit
          (show (shunt qid { s with tasks := s.tasks.eraseIdx i }).idleEmits
            ≠ ({ s with tasks := s.tasks.eraseIdx i } : PState).idleEmits from h)
      | shuntNextT =>
        intro h
        exact shuntNext_emit
          (show (shuntNext { s with tasks := s.tasks.eraseIdx i }).idleEmits
            ≠ ({ s with tasks := s.tasks.eraseIdx i } : PState).idleEmits from h)
      | timeoutT qid =>
        intro h
        exact absurd timeoutShunt_idleEmits h

/-- C9: the idle notification is emitted by a dispatch pass exactly
when the pipeline is running and both the pending queue and the
attempt-budget map are empty; and whenever any pipeline event emits it,
the resulting state has an empty pending queue and an empty budget map,
so it never fires while a request is pending or occupies a slot. -/
theorem idle_signal_iff :
    (∀ s : PState, (shuntNext s).idleEmits = s.idleEmits +
      (if s.running = true ∧ s.pending = [] ∧ s.qidsState = [] then 1 else 0)) ∧
    (∀ (s : PState) (e : Event), (step s e).idleEmits ≠ s.idleEmits →
      (step s e).pending = [] ∧ (step s e).qidsState = []) :=
  ⟨shuntNext_idle_iff, step_emit⟩

/-- Witness for C9: an empty submission on a started, empty pipeline
runs a dispatch pass that emits idle, and the resulting state indeed
has nothing pending and no occupied slot. -/
theorem idle_signal_iff_witness :
    (step { initState 4 with running := true } (Event.resolveE [] false false)).pending = [] ∧
    (step { initState 4 with running := true } (Event.resolveE [] false false)).qidsState = [] :=
  idle_signal_iff.2 { initState 4 with running := true } (Event.resolveE [] false false)
    (by decide)

/-- Witness for C1 at a concrete registry: two resolvers of weights 10
and 20, none attempted; the weight-20 resolver is selected. -/
theorem nextResolver_selection_witness :
    ∃ pre post : List Resolver,
      ([⟨1, 10, 0⟩, ⟨2, 20, 0⟩] : List Resolver).filter (fun x => !(memN x.rid [])) =
        pre ++ (⟨2, 20, 0⟩ : Resolver) :: post ∧
      (∀ p ∈ pre, p.weight < (⟨2, 20, 0⟩ : Resolver).weight) ∧
      (∀ q ∈ post, q.weight ≤ (⟨2, 20, 0⟩ : Resolver).weight) :=
  (nextResolver_selection [] [⟨1, 10, 0⟩, ⟨2, 20, 0⟩]).2 ⟨2, 20, 0⟩ (by decide)

end Tomahawk
